import Mathlib

/-!
# Verification of the rwz-analyze heuristic structure-inference pipeline

Shallow embedding of the core analysis functions of the `rwz-analyze`
repository (`tools/rwz_gap_analyze.py`, `tools/rwz_gap_details.py`,
`tools/rwz_pointer_network.py`, `tools/rwz_size_fields.py`,
`tools/rwz_analyze.py`) together with proofs of the specified properties.

A byte buffer is modelled as `List ℕ` (each entry a byte value `< 256`;
theorems that need this carry it as a hypothesis).  Python `float`
arithmetic on ratios is modelled exactly over `ℚ`; the Shannon-entropy
threshold test is modelled by an exact integer inequality that is proved
equivalent to the real-number statement `entropy > 3`.  Python exceptions
(the division by zero in `classify_gaps` on an empty region) are modelled
with `Option`.  Presentation-only fields of the Python result dictionaries
(hex strings such as `start_hex`, derived echo fields) are not modelled.
-/

namespace Rwz

/-- Printable-ASCII test `0x20 <= b <= 0x7e`, used by all regex scanners. -/
def printable (b : ℕ) : Bool := 0x20 ≤ b && b ≤ 0x7e

/-! ## `tools/rwz_gap_analyze.py`: text-region scanners

`UTF16LE_RE = (?:[\x20-\x7e]\x00){m,}`, `UTF16BE_RE = (?:\x00[\x20-\x7e]){m,}`
and `ASCII_RE = [\x20-\x7e]{m,}` (with `m = 2` in `rwz_gap_analyze.py` and
`m = 4` for the UTF-16LE pattern of `rwz_analyze.py`) are scanned with
`finditer`: at each position the greedy repetition consumes the maximal run;
on failure the scan advances one byte; matches do not overlap.  The scanners
below reproduce exactly that behaviour, returning half-open byte intervals
`(start, end)`. -/

/-- Length of the leading run of printable bytes (`[\x20-\x7e]*`). -/
def asciiRunLen : List ℕ → ℕ
  | [] => 0
  | b :: rest => if printable b then asciiRunLen rest + 1 else 0

/-- Number of leading `(printable, 0x00)` pairs (`(?:[\x20-\x7e]\x00)*`). -/
def lePairs : List ℕ → ℕ
  | a :: b :: rest => if printable a && b == 0 then lePairs rest + 1 else 0
  | _ => 0

/-- Number of leading `(0x00, printable)` pairs (`(?:\x00[\x20-\x7e])*`). -/
def bePairs : List ℕ → ℕ
  | a :: b :: rest => if a == 0 && printable b then bePairs rest + 1 else 0
  | _ => 0

/-- `finditer` of `[\x20-\x7e]{minRun,}` over the suffix of the buffer
starting at absolute position `i`. -/
def asciiScan (minRun : ℕ) : List ℕ → ℕ → List (ℕ × ℕ)
  | [], _ => []
  | b :: rest, i =>
    if asciiRunLen (b :: rest) ≥ minRun then
      (i, i + asciiRunLen (b :: rest)) ::
        asciiScan minRun (List.drop (asciiRunLen (b :: rest) - 1) rest) (i + asciiRunLen (b :: rest))
    else asciiScan minRun rest (i + 1)
  termination_by l _ => l.length
  decreasing_by
    all_goals simp only [List.length_drop, List.length_cons]
    all_goals omega

/-- `finditer` of `(?:[\x20-\x7e]\x00){minPairs,}`: emits `(i, i + 2k)` for a
maximal run of `k ≥ minPairs` little-endian character pairs. -/
def u16leScan (minPairs : ℕ) : List ℕ → ℕ → List (ℕ × ℕ)
  | [], _ => []
  | b :: rest, i =>
    if lePairs (b :: rest) ≥ minPairs then
      (i, i + 2 * lePairs (b :: rest)) ::
        u16leScan minPairs (List.drop (2 * lePairs (b :: rest) - 1) rest) (i + 2 * lePairs (b :: rest))
    else u16leScan minPairs rest (i + 1)
  termination_by l _ => l.length
  decreasing_by
    all_goals simp only [List.length_drop, List.length_cons]
    all_goals omega

/-- `finditer` of `(?:\x00[\x20-\x7e]){minPairs,}`. -/
def u16beScan (minPairs : ℕ) : List ℕ → ℕ → List (ℕ × ℕ)
  | [], _ => []
  | b :: rest, i =>
    if bePairs (b :: rest) ≥ minPairs then
      (i, i + 2 * bePairs (b :: rest)) ::
        u16beScan minPairs (List.drop (2 * bePairs (b :: rest) - 1) rest) (i + 2 * bePairs (b :: rest))
    else u16beScan minPairs rest (i + 1)
  termination_by l _ => l.length
  decreasing_by
    all_goals simp only [List.length_drop, List.length_cons]
    all_goals omega

/-- The candidate text ranges collected by `main` of `rwz_gap_analyze.py`:
UTF-16LE, then UTF-16BE, then ASCII matches of the `{2,}` patterns, each kept
when its character count is at least `min_chars`. -/
def textRanges (data : List ℕ) (minChars : ℕ) : List (ℕ × ℕ) :=
  ((u16leScan 2 data 0).filter fun p => (p.2 - p.1) / 2 ≥ minChars) ++
  ((u16beScan 2 data 0).filter fun p => (p.2 - p.1) / 2 ≥ minChars) ++
  ((asciiScan 2 data 0).filter fun p => p.2 - p.1 ≥ minChars)

/-! ## `merge_ranges` and gap construction (`rwz_gap_analyze.py`) -/

/-- Lexicographic order on pairs: the order used by Python's `ranges.sort()`
on `(start, end)` tuples. -/
def lexLe (a b : ℕ × ℕ) : Prop := a.1 < b.1 ∨ (a.1 = b.1 ∧ a.2 ≤ b.2)

instance : DecidableRel lexLe := fun a b => by
  unfold lexLe; infer_instance

instance : IsTotal (ℕ × ℕ) lexLe :=
  ⟨by intro a b; unfold lexLe; omega⟩

instance : IsTrans (ℕ × ℕ) lexLe :=
  ⟨by intro a b c; unfold lexLe; omega⟩

/-- The merging loop of `merge_ranges`: `cur` is the interval under
construction (Python's `merged[-1]`); a range whose start lies at or before
`cur`'s end extends it, otherwise `cur` is emitted and the range starts a
new interval. -/
def mergeAux : ℕ × ℕ → List (ℕ × ℕ) → List (ℕ × ℕ)
  | cur, [] => [cur]
  | (cs, ce), (s, e) :: rest =>
    if s ≤ ce then mergeAux (cs, max ce e) rest
    else (cs, ce) :: mergeAux (s, e) rest

/-- `merge_ranges(ranges)`: sort lexicographically, then merge overlapping
or touching intervals. -/
def merge_ranges (ranges : List (ℕ × ℕ)) : List (ℕ × ℕ) :=
  match List.insertionSort lexLe ranges with
  | [] => []
  | r :: rs => mergeAux r rs

/-- The gap-construction loop of `main` of `rwz_gap_analyze.py`: walk the
merged intervals keeping a cursor `last`; emit `(last, start)` before an
interval that begins past the cursor, advance the cursor to
`max last end`, and close with `(last, len)` when bytes remain. -/
def gapsLoop (len : ℕ) : ℕ → List (ℕ × ℕ) → List (ℕ × ℕ)
  | last, [] => if last < len then [(last, len)] else []
  | last, (s, e) :: rest =>
    (if last < s then [(last, s)] else []) ++ gapsLoop len (max last e) rest

/-- The gap intervals computed from the merged ranges over a buffer of
length `len`. -/
def buildGaps (merged : List (ℕ × ℕ)) (len : ℕ) : List (ℕ × ℕ) :=
  gapsLoop len 0 merged

/-- Membership of a point in a list of half-open intervals. -/
def covers (l : List (ℕ × ℕ)) (x : ℕ) : Prop := ∃ p ∈ l, p.1 ≤ x ∧ x < p.2

/-! ## `tools/rwz_gap_details.py`: zero-run gaps and classification -/

/-- A gap found by `find_all_gaps` (`start`/`end`/`size` of the Python dict;
the `_hex` fields are presentation only).  `end` is a Lean keyword, so the
field is named `stop`. -/
structure Gap where
  start : ℕ
  stop : ℕ
  size : ℕ
deriving DecidableEq, Repr

/-- The scanning loop of `find_all_gaps`: `offset` is the current position,
`inGap`/`gapStart` the `in_gap`/`gap_start` state, `acc` the accumulated
gap list; a maximal run of zero bytes of length at least `minGapSize` is
recorded as a gap. -/
def findGapsGo (minGapSize : ℕ) : List ℕ → ℕ → Bool → ℕ → List Gap → List Gap
  | [], offset, inGap, gapStart, acc =>
    if inGap then
      if offset - gapStart ≥ minGapSize then acc ++ [⟨gapStart, offset, offset - gapStart⟩] else acc
    else acc
  | b :: rest, offset, inGap, gapStart, acc =>
    if b = 0 then
      if inGap then findGapsGo minGapSize rest (offset + 1) true gapStart acc
      else findGapsGo minGapSize rest (offset + 1) true offset acc
    else
      if inGap then
        findGapsGo minGapSize rest (offset + 1) false gapStart
          (if offset - gapStart ≥ minGapSize then acc ++ [⟨gapStart, offset, offset - gapStart⟩]
           else acc)
      else findGapsGo minGapSize rest (offset + 1) false gapStart acc

/-- Non-increasing order on gap sizes (Python `sorted(gaps, key=lambda x: -x['size'])`). -/
def gapSizeGe (a b : Gap) : Prop := b.size ≤ a.size

instance : DecidableRel gapSizeGe := fun a b => by unfold gapSizeGe; infer_instance

instance : IsTotal Gap gapSizeGe := ⟨by intro a b; unfold gapSizeGe; omega⟩

instance : IsTrans Gap gapSizeGe := ⟨by intro a b c; unfold gapSizeGe; omega⟩

/-- `find_all_gaps(data, min_gap_size)` (default `min_gap_size = 4`). -/
def find_all_gaps (data : List ℕ) (minGapSize : ℕ) : List Gap :=
  List.insertionSort gapSizeGe (findGapsGo minGapSize data 0 false 0 [])

/-- Python slice `data[start:stop]`. -/
def sliceRegion (data : List ℕ) (start stop : ℕ) : List ℕ :=
  (data.drop start).take (stop - start)

/-- Specification predicate for the gaps returned by `find_all_gaps`: a
maximal zero-byte run of at least the minimum size — every byte in
`[start, stop)` is zero, the recorded size is `stop - start` and is at least
`minGapSize`, and the byte at `stop` is nonzero unless `stop` is the end of
the buffer. -/
def zeroRunGap (data : List ℕ) (minGapSize : ℕ) (g : Gap) : Prop :=
  (∀ j, g.start ≤ j → j < g.stop → data[j]? = some 0) ∧
  minGapSize ≤ g.size ∧ g.size = g.stop - g.start ∧
  (g.stop = data.length ∨ ∃ b, data[g.stop]? = some b ∧ b ≠ 0)

/-- `∏ c_b ^ c_b` over the byte histogram of the region; `entropy > 3.0`
holds exactly when `n ^ n > 8 ^ n * entropyProd` (see `entropyGtThree_iff`). -/
def entropyProd (region : List ℕ) : ℕ :=
  ∏ b ∈ Finset.range 256, region.count b ^ region.count b

/-- Exact (integer) form of the base-2 Shannon-entropy test `entropy > 3.0`
performed by `classify_gaps`. -/
def entropyGtThree (region : List ℕ) : Bool :=
  decide (8 ^ region.length * entropyProd region < region.length ^ region.length)

/-- Base-2 Shannon entropy of the region's byte histogram, exactly as
`classify_gaps` computes it (terms with count `0` contribute `0`). -/
noncomputable def realEntropy (region : List ℕ) : ℝ :=
  -∑ b ∈ Finset.range 256,
    ((region.count b : ℝ) / region.length) * Real.logb 2 ((region.count b : ℝ) / region.length)

/-- `null_ratio = region.count(0) / len(region)` over exact rationals (only
ever used on a nonempty region; on an empty one the Python expression raises
`ZeroDivisionError`, modelled by the `Option` in `classifyGap`). -/
def nullRatio (region : List ℕ) : ℚ := (region.count 0 : ℚ) / region.length

/-- The four gap classes of `classify_gaps`. -/
inductive GapClass
  | pure_null
  | sparse
  | structured
  | unknown
deriving DecidableEq, Repr

/-- Classification of one gap by `classify_gaps`: `none` models the
`ZeroDivisionError` raised by `region.count(0) / len(region)` on an empty
region; otherwise the priority cascade over `null_ratio` and entropy. -/
def classifyGap (data : List ℕ) (g : Gap) : Option GapClass :=
  if (sliceRegion data g.start g.stop).length = 0 then none
  else some
    (if nullRatio (sliceRegion data g.start g.stop) > 95 / 100 then .pure_null
     else if nullRatio (sliceRegion data g.start g.stop) > 1 / 2 then .sparse
     else if entropyGtThree (sliceRegion data g.start g.stop) then .structured
     else .unknown)

/-- The four bucket lists built by `classify_gaps`; entries are
`(start, end - start)` as in the Python dicts (the `entropy` value echoed in
three of the buckets is presentation only). -/
structure GapClassification where
  pure_null : List (ℕ × ℕ)
  sparse : List (ℕ × ℕ)
  structured : List (ℕ × ℕ)
  unknown : List (ℕ × ℕ)
deriving DecidableEq, Repr

/-- The loop of `classify_gaps`, appending each gap to the bucket chosen by
`classifyGap`; `none` when any gap has an empty region. -/
def classifyGapsGo (data : List ℕ) : List Gap → GapClassification → Option GapClassification
  | [], acc => some acc
  | g :: rest, acc =>
    match classifyGap data g with
    | none => none
    | some GapClass.pure_null =>
      classifyGapsGo data rest { acc with pure_null := acc.pure_null ++ [(g.start, g.stop - g.start)] }
    | some GapClass.sparse =>
      classifyGapsGo data rest { acc with sparse := acc.sparse ++ [(g.start, g.stop - g.start)] }
    | some GapClass.structured =>
      classifyGapsGo data rest { acc with structured := acc.structured ++ [(g.start, g.stop - g.start)] }
    | some GapClass.unknown =>
      classifyGapsGo data rest { acc with unknown := acc.unknown ++ [(g.start, g.stop - g.start)] }

/-- `classify_gaps(gaps, data)`. -/
def classify_gaps (gaps : List Gap) (data : List ℕ) : Option GapClassification :=
  classifyGapsGo data gaps ⟨[], [], [], []⟩

/-! ## `tools/rwz_pointer_network.py` -/

/-- `struct.unpack('<I', data[o:o+4])[0]` — the little-endian 32-bit word at
`o` (callers guarantee `o + 4 ≤ len(data)`). -/
def readLE32 (data : List ℕ) (o : ℕ) : ℕ :=
  data.getD o 0 + 256 * data.getD (o + 1) 0 + 65536 * data.getD (o + 2) 0 +
    16777216 * data.getD (o + 3) 0

/-- A pointer candidate (`offset`/`value`/`confidence` of the Python dict;
`target` duplicates `value` and the `_hex` fields are presentation only). -/
structure Ptr where
  offset : ℕ
  value : ℕ
  confidence : ℚ
deriving DecidableEq, Repr

/-- `_estimate_pointer_confidence(data, offset, target)`. -/
def estimateConfidence (data : List ℕ) (offset target : ℕ) : ℚ :=
  min 1
    ((if target % 4 = 0 then 1 / 5 else 0) +
     (if target + 16 < data.length ∧ (sliceRegion data target (target + 16)).any printable
      then 3 / 10 else 0) +
     (if 4 ≤ offset ∧ 100 < readLE32 data (offset - 4) ∧ readLE32 data (offset - 4) < 50000
      then 1 / 5 else 0) +
     (if 8 ≤ offset ∧ offset + 8 < data.length ∧ 100 < target ∧
         100 ≤ readLE32 data (offset - 4) ∧ readLE32 data (offset - 4) < data.length ∧
         100 ≤ readLE32 data (offset + 4) ∧ readLE32 data (offset + 4) < data.length
      then 3 / 10 else 0))

/-- The 4-byte-aligned offsets `range(0, n, 4)` (callers pass
`n = len(data) - 3` or `n = len(data) - 4`, truncated at zero as in Python's
empty range for a negative stop). -/
def alignedOffsets (n : ℕ) : List ℕ :=
  (List.range n).filter fun o => o % 4 == 0

/-- `extract_all_pointers(data, min_val, max_val)` (`max_val = None` means
`len(data)`): at every aligned offset with four bytes available, the word is
a candidate iff `min_val <= value < max_val`. -/
def extract_all_pointers (data : List ℕ) (minVal : ℕ) (maxVal : Option ℕ) : List Ptr :=
  (alignedOffsets (data.length - 3)).filterMap fun o =>
    if minVal ≤ readLE32 data o ∧ readLE32 data o < maxVal.getD data.length then
      some ⟨o, readLE32 data o, estimateConfidence data o (readLE32 data o)⟩
    else none

/-- Chain record type (`'cycle'` / `'linear'`). -/
inductive ChainType
  | cycle
  | linear
deriving DecidableEq, Repr

/-- A chain reported by `detect_pointer_chains` (offset list kept numeric;
the hex rendering is presentation only). -/
structure ChainRec where
  ctype : ChainType
  chain : List ℕ
  cycleLength : Option ℕ
  depth : ℕ
  finalTarget : Option ℕ
deriving DecidableEq, Repr

/-- The dict comprehension `{p['offset']: p for p in pointers}`: on duplicate
offsets the later entry wins. -/
def offsetToPtr (pointers : List Ptr) (o : ℕ) : Option Ptr :=
  pointers.reverse.find? fun p => p.offset == o

/-- The `while depth < max_depth` walk of `detect_pointer_chains`: follow
`value` while it is a known pointer offset; an offset already in the current
chain records a cycle and stops; a target that is no pointer offset records a
linear chain (when at least one step was taken); reaching the depth bound
stops without a record. -/
def chainGo (find : ℕ → Option Ptr) (maxDepth : ℕ) :
    ℕ → List ℕ → ℕ → List ℕ × Option ChainRec
  | depth, chain, target =>
    if _h : depth < maxDepth then
      match find target with
      | some p =>
        if p.offset ∈ chain then
          (chain, some ⟨ChainType.cycle, chain, some chain.length, depth, none⟩)
        else chainGo find maxDepth (depth + 1) (chain ++ [p.offset]) p.value
      | none =>
        (chain, if 0 < depth then some ⟨ChainType.linear, chain, none, depth + 1, some target⟩
                else none)
    else (chain, none)
  termination_by depth _ _ => maxDepth - depth
  decreasing_by omega

/-- One chain walk, started from a pointer candidate as in
`detect_pointer_chains` (`chain = [start_ptr['offset']]`, `depth = 0`,
`current_target = start_ptr['value']`). -/
def walkFrom (find : ℕ → Option Ptr) (maxDepth startOffset startValue : ℕ) :
    List ℕ × Option ChainRec :=
  chainGo find maxDepth 0 [startOffset] startValue

/-- The outer loop of `detect_pointer_chains` over the start candidates with
its global `visited` set. -/
def detectGo (find : ℕ → Option Ptr) (maxDepth : ℕ) :
    List Ptr → List ℕ → List ChainRec → List ChainRec
  | [], _, chains => chains
  | p :: rest, visited, chains =>
    if p.offset ∈ visited then detectGo find maxDepth rest visited chains
    else
      detectGo find maxDepth rest (visited ++ (walkFrom find maxDepth p.offset p.value).1)
        (chains ++ (walkFrom find maxDepth p.offset p.value).2.toList)

/-- Non-increasing order on chain depth (`sorted(chains, key=lambda x: -x['depth'])`). -/
def chainDepthGe (a b : ChainRec) : Prop := b.depth ≤ a.depth

instance : DecidableRel chainDepthGe := fun a b => by unfold chainDepthGe; infer_instance

instance : IsTotal ChainRec chainDepthGe := ⟨by intro a b; unfold chainDepthGe; omega⟩

instance : IsTrans ChainRec chainDepthGe := ⟨by intro a b c; unfold chainDepthGe; omega⟩

/-- `detect_pointer_chains(pointers, data, max_depth)` (the `data` argument
is unused by the Python function as well). -/
def detect_pointer_chains (pointers : List Ptr) (_data : List ℕ) (maxDepth : ℕ) :
    List ChainRec :=
  (List.insertionSort chainDepthGe
    (detectGo (offsetToPtr pointers) maxDepth pointers [] [])).take 100

/-! ## `tools/rwz_size_fields.py` -/

/-- UTF-8 continuation byte `0x80..0xbf`. -/
def utf8Cont (b : ℕ) : Bool := 0x80 ≤ b && b ≤ 0xbf

/-- `is_valid_utf8`: whether the byte list decodes as UTF-8 (Python
`bytes.decode('utf-8')` succeeding — rejecting overlong forms, surrogates
`U+D800..U+DFFF` and code points above `U+10FFFF`). -/
def validUtf8 : List ℕ → Bool
  | [] => true
  | b :: rest =>
    if b < 0x80 then validUtf8 rest
    else if 0xc2 ≤ b ∧ b ≤ 0xdf then
      match rest with
      | c :: r2 => utf8Cont c && validUtf8 r2
      | _ => false
    else if b = 0xe0 then
      match rest with
      | c :: d :: r2 => (0xa0 ≤ c && c ≤ 0xbf) && utf8Cont d && validUtf8 r2
      | _ => false
    else if (0xe1 ≤ b ∧ b ≤ 0xec) ∨ b = 0xee ∨ b = 0xef then
      match rest with
      | c :: d :: r2 => utf8Cont c && utf8Cont d && validUtf8 r2
      | _ => false
    else if b = 0xed then
      match rest with
      | c :: d :: r2 => (0x80 ≤ c && c ≤ 0x9f) && utf8Cont d && validUtf8 r2
      | _ => false
    else if b = 0xf0 then
      match rest with
      | c :: d :: e :: r2 => (0x90 ≤ c && c ≤ 0xbf) && utf8Cont d && utf8Cont e && validUtf8 r2
      | _ => false
    else if 0xf1 ≤ b ∧ b ≤ 0xf3 then
      match rest with
      | c :: d :: e :: r2 => utf8Cont c && utf8Cont d && utf8Cont e && validUtf8 r2
      | _ => false
    else if b = 0xf4 then
      match rest with
      | c :: d :: e :: r2 => (0x80 ≤ c && c ≤ 0x8f) && utf8Cont d && utf8Cont e && validUtf8 r2
      | _ => false
    else false
  termination_by l => l.length
  decreasing_by all_goals simp only [List.length_cons]; omega

/-- The little-endian 16-bit code units of a byte list (complete pairs). -/
def toUnits : List ℕ → List ℕ
  | a :: b :: rest => (a + 256 * b) :: toUnits rest
  | _ => []

/-- Valid UTF-16 code-unit sequence: a high surrogate must be followed by a
low surrogate, and a lone low surrogate is invalid. -/
def validUtf16Units : List ℕ → Bool
  | [] => true
  | u :: rest =>
    if 0xd800 ≤ u ∧ u ≤ 0xdbff then
      match rest with
      | v :: r2 => (0xdc00 ≤ v && v ≤ 0xdfff) && validUtf16Units r2
      | [] => false
    else if 0xdc00 ≤ u ∧ u ≤ 0xdfff then false
    else validUtf16Units rest
  termination_by l => l.length
  decreasing_by all_goals simp only [List.length_cons]; omega

/-- `is_valid_utf16`: even length and Python `bytes.decode('utf-16-le')`
succeeding. -/
def validUtf16 (l : List ℕ) : Bool :=
  if l.length % 2 ≠ 0 then false else validUtf16Units (toUnits l)

/-- A size-field candidate (the fields of the Python dict, `_hex` fields
presentation only). -/
structure SizeField where
  size_offset : ℕ
  size_value : ℕ
  data_offset : ℕ
  data_length : ℕ
  confidence : ℚ
  utf8_valid : Bool
  utf16_valid : Bool
  null_ratio : ℚ
deriving DecidableEq, Repr

/-- Decode checks, null ratio and confidence of `detect_size_fields` for an
in-bounds region. -/
def mkSizeField (_data : List ℕ) (offset value : ℕ) (region : List ℕ) : Option SizeField :=
  if validUtf8 region || validUtf16 region ||
      (if region.isEmpty then (0 : ℚ) else (region.count 0 : ℚ) / region.length) < 1 / 2 then
    some
      ⟨offset, value, offset + 4, value,
        min 1
          ((if validUtf8 region then 1 / 2 else 0) + (if validUtf16 region then 1 / 2 else 0) +
            (if (if region.isEmpty then (0 : ℚ) else (region.count 0 : ℚ) / region.length) < 3 / 10
             then 1 / 5 else 0)),
        validUtf8 region, validUtf16 region,
        if region.isEmpty then 0 else (region.count 0 : ℚ) / region.length⟩
  else none

/-- The body of the `detect_size_fields` loop for one aligned offset:
`None` models `continue` (candidate excluded).  The guards are, in order:
plausible size `10 < value < 50000`; the declared payload fits
(`offset + 4 + value <= len(data)`); then `mkSizeField` applies the decode
and null-ratio checks. -/
def sizeFieldAt (data : List ℕ) (offset : ℕ) : Option SizeField :=
  if ¬(10 < readLE32 data offset ∧ readLE32 data offset < 50000) then none
  else if data.length < offset + 4 + readLE32 data offset then none
  else
    mkSizeField data offset (readLE32 data offset)
      (sliceRegion data (offset + 4) (offset + 4 + readLE32 data offset))

/-- `detect_size_fields(data)`: scan `range(0, len(data) - 4, 4)`. -/
def detect_size_fields (data : List ℕ) : List SizeField :=
  (alignedOffsets (data.length - 4)).filterMap (sizeFieldAt data)

/-! ## `tools/rwz_analyze.py`: segmentation and OCR correlation

Decoded strings are modelled as `List Char`.  The Unicode-aware pieces of
Python (`str.lower`, the `\w` class of `NORMALIZE_RE`) are modelled with
Lean's `Char.toLower` / `Char.isAlphanum`, which agree with Python on the
ASCII range produced by the extractors. -/

/-- Python `s.find(c)` from index `i`: index of the first match, `none` for
`-1`. -/
def findIdxFrom (p : Char → Bool) : List Char → ℕ → Option ℕ
  | [], _ => none
  | c :: rest, i => if p c then some i else findIdxFrom p rest (i + 1)

/-- `is_rule_header(s)`: starts with `'['` and the first `']'` occurs before
index 80. -/
def is_rule_header (s : List Char) : Bool :=
  match s with
  | [] => false
  | c :: _ =>
    if c ≠ '[' then false
    else
      match findIdxFrom (fun ch => ch == ']') s 0 with
      | some close => close < 80
      | none => false

/-- A record built by the segmentation loop of `main`
(`{'title': s, 'entries': [(offset, s), ...]}`). -/
structure RuleSeg where
  title : List Char
  entries : List (ℕ × List Char)
deriving DecidableEq, Repr

/-- The segmentation loop of `main`: a header entry closes the open record
(if any) and opens a new one containing the header entry; other entries
attach to the open record, or to the preamble when no record is open. -/
def segLoop :
    List (ℕ × List Char) → Option RuleSeg → List RuleSeg → List (ℕ × List Char) →
      List RuleSeg × List (ℕ × List Char)
  | [], cur, rules, pre =>
    (match cur with
     | some r => rules ++ [r]
     | none => rules,
     pre)
  | (o, s) :: rest, cur, rules, pre =>
    if is_rule_header s then
      segLoop rest (some ⟨s, [(o, s)]⟩)
        (match cur with
         | some r => rules ++ [r]
         | none => rules)
        pre
    else
      match cur with
      | none => segLoop rest none rules (pre ++ [(o, s)])
      | some r => segLoop rest (some ⟨r.title, r.entries ++ [(o, s)]⟩) rules pre

/-- Segmentation of the offset-ordered entries: the records and the
preamble. -/
def segment (entries : List (ℕ × List Char)) : List RuleSeg × List (ℕ × List Char) :=
  segLoop entries none [] []

/-- Entries that are not rule headers (used by the specification-side
description of segmentation). -/
def notHeader (e : ℕ × List Char) : Bool := !is_rule_header e.2

/-- Specification-side description of segmentation (the claim's wording):
each header opens a record holding the header entry and the following
non-header entries, up to the next header. -/
def specRecords : List (ℕ × List Char) → List RuleSeg
  | [] => []
  | e :: rest =>
    if is_rule_header e.2 then
      ⟨e.2, e :: rest.takeWhile notHeader⟩ :: specRecords (rest.dropWhile notHeader)
    else specRecords rest
  termination_by l => l.length
  decreasing_by
    all_goals simp only [List.length_cons]
    · have h : ∀ (l : List (ℕ × List Char)), (l.dropWhile notHeader).length ≤ l.length := by
        intro l
        induction l with
        | nil => simp [List.dropWhile]
        | cons a l ih =>
          rw [List.dropWhile]
          split
          · simp only [List.length_cons]; omega
          · simp
      have := h rest
      omega
    · omega

/-- `normalize_token(s)`: `NORMALIZE_RE = [\W_]+` substitution removes every
non-alphanumeric character, then lower-case. -/
def normalize_token (s : List Char) : List Char :=
  (s.filter fun c => c.isAlphanum).map Char.toLower

/-- A summarized rule record as consumed by `match_ocr_rules`
(`title`, `emails`, `keywords` of the summary dict). -/
structure Rule where
  title : List Char
  emails : List (List Char)
  keywords : List (List Char)
deriving DecidableEq, Repr

/-- An OCR-derived record as consumed by `match_ocr_rules`
(`name`, `emails`, `subject_keywords`). -/
structure OcrRule where
  name : List Char
  emails : List (List Char)
  subject_keywords : List (List Char)
deriving DecidableEq, Repr

/-- `len(set(a) & set(b))`: number of distinct common elements. -/
def interCard (a b : List (List Char)) : ℕ :=
  (a.dedup.filter fun x => decide (x ∈ b)).length

/-- The title condition of the scoring loop:
`tnorm and (tnorm == onorm or tnorm in onorm or onorm in tnorm)` — note the
truthiness test `tnorm`, which fails for an empty normalized title. -/
def titleHit (rule : Rule) (ocr : OcrRule) : Bool :=
  !(normalize_token rule.title).isEmpty &&
    (normalize_token rule.title == normalize_token ocr.name ||
     decide (normalize_token rule.title <:+: normalize_token ocr.name) ||
     decide (normalize_token ocr.name <:+: normalize_token rule.title))

/-- The score of one `(rule, ocr)` pair computed by `match_ocr_rules`. -/
def score (rule : Rule) (ocr : OcrRule) : ℕ :=
  (if titleHit rule ocr then 10 else 0) + 2 * interCard ocr.emails rule.emails +
    interCard (ocr.subject_keywords.map normalize_token) (rule.keywords.map normalize_token)

/-- The title indicator exactly as the claim words it (no truthiness guard):
normalized titles equal or one a substring of the other. -/
def claimTitleMatch (t o : List Char) : Prop := t = o ∨ t <:+: o ∨ o <:+: t

instance : DecidableRel claimTitleMatch := fun t o => by
  unfold claimTitleMatch; infer_instance

/-- The pair score exactly as the claim words it:
`10×[titles equal or one substring of the other] + 2×|email∩email| +
|normalized_keyword∩normalized_keyword|`. -/
def claimScore (rule : Rule) (ocr : OcrRule) : ℕ :=
  (if claimTitleMatch (normalize_token rule.title) (normalize_token ocr.name) then 10 else 0) +
    2 * (ocr.emails.toFinset ∩ rule.emails.toFinset).card +
    ((ocr.subject_keywords.map normalize_token).toFinset ∩
        (rule.keywords.map normalize_token).toFinset).card

/-- The best-candidate fold of `match_ocr_rules`: running best index and
best score (`best_idx = None`, `best_score = 0` initially; strict
improvement only). -/
def bestLoop : List (ℕ × ℕ) → Option ℕ → ℕ → Option ℕ × ℕ
  | [], bi, bs => (bi, bs)
  | (i, s) :: rest, bi, bs => if s > bs then bestLoop rest (some i) s else bestLoop rest bi bs

/-- Best-scoring OCR record for one rule. -/
def bestFor (ocrRules : List OcrRule) (rule : Rule) : Option ℕ × ℕ :=
  bestLoop (ocrRules.enum.map fun p => (p.1, score rule p.2)) none 0

/-- A rule after correlation: the Python code stores the matched OCR dict and
score in the rule dict; the match is represented by the index of the OCR
record (its identity in `ocr_rules`) and the score. -/
structure MatchedRule where
  rule : Rule
  ocrIdx : Option ℕ
  ocrScore : Option ℕ
deriving DecidableEq, Repr

/-- The rule loop of `match_ocr_rules`, threading the `unmatched` index set
(kept as the sorted list it remains throughout). -/
def matchGo (ocrRules : List OcrRule) :
    List Rule → List ℕ → List MatchedRule → List MatchedRule × List ℕ
  | [], unmatched, out => (out, unmatched)
  | r :: rest, unmatched, out =>
    match bestFor ocrRules r with
    | (some i, bs) =>
      if bs > 0 then matchGo ocrRules rest (unmatched.erase i) (out ++ [⟨r, some i, some bs⟩])
      else matchGo ocrRules rest unmatched (out ++ [⟨r, none, none⟩])
    | (none, _) => matchGo ocrRules rest unmatched (out ++ [⟨r, none, none⟩])

/-- `match_ocr_rules(rules, ocr_rules)`: the annotated rules and
`[ocr_rules[i] for i in sorted(unmatched)]`. -/
def match_ocr_rules (rules : List Rule) (ocrRules : List OcrRule) :
    List MatchedRule × List OcrRule :=
  ((matchGo ocrRules rules (List.range ocrRules.length) []).1,
   (List.insertionSort (· ≤ ·) (matchGo ocrRules rules (List.range ocrRules.length) []).2).filterMap
     fun i => ocrRules.get? i)

/-- The per-rule result of the `match_ocr_rules` loop (specification-side
restatement of the loop body): the best index is assigned when its score is
positive. -/
def applyBest (ocrRules : List OcrRule) (r : Rule) : MatchedRule :=
  match bestFor ocrRules r with
  | (some i, bs) => if bs > 0 then ⟨r, some i, some bs⟩ else ⟨r, none, none⟩
  | (none, _) => ⟨r, none, none⟩

/-- The OCR index a rule is assigned, if any. -/
def assignedIdx (ocrRules : List OcrRule) (r : Rule) : Option ℕ :=
  (applyBest ocrRules r).ocrIdx

/-! ## The composed pipeline (for the determinism property)

`summarize_rule` (regex email harvesting) sits between segmentation and
correlation and is out of the embedded core; the pipeline therefore takes
the summarized `rules` list as an explicit input alongside the OCR records,
mirroring §5 of the spec (each stage a pure function of the buffer and, for
correlation, the externally supplied evidence set). -/

/-- Decode of one UTF-16LE match group (pairs `(printable, 0x00)`, so the
characters are the even-position bytes). -/
def decodeU16Run (data : List ℕ) (s k : ℕ) : List Char :=
  (List.range k).map fun j => Char.ofNat (data.getD (s + 2 * j) 0)

/-- `extract_utf16_strings(data, min_chars)` of `rwz_analyze.py`
(`UTF16_RE = (?:[\x20-\x7e]\x00){4,}`). -/
def extract_utf16_strings (data : List ℕ) (minChars : ℕ) : List (ℕ × List Char) :=
  (u16leScan 4 data 0).filterMap fun p =>
    if (p.2 - p.1) / 2 ≥ minChars then some (p.1, decodeU16Run data p.1 ((p.2 - p.1) / 2))
    else none

/-- `extract_ascii_strings(data, min_chars)` of `rwz_analyze.py`
(`ASCII_RE = [\x20-\x7e]{4,}`). -/
def extract_ascii_strings (data : List ℕ) (minChars : ℕ) : List (ℕ × List Char) :=
  (asciiScan 4 data 0).filterMap fun p =>
    if p.2 - p.1 ≥ minChars then
      some (p.1, (sliceRegion data p.1 p.2).map Char.ofNat)
    else none

/-- Offset order used by `entries.sort(key=lambda x: x[0])`. -/
def entryLe (a b : ℕ × List Char) : Prop := a.1 ≤ b.1

instance : DecidableRel entryLe := fun a b => by unfold entryLe; infer_instance

instance : IsTotal (ℕ × List Char) entryLe := ⟨by intro a b; unfold entryLe; omega⟩

instance : IsTrans (ℕ × List Char) entryLe := ⟨by intro a b c; unfold entryLe; omega⟩

/-- The offset-sorted entry list analyzed by `main` of `rwz_analyze.py`. -/
def analyzeEntries (data : List ℕ) (minChars : ℕ) (includeAscii : Bool) :
    List (ℕ × List Char) :=
  List.insertionSort entryLe
    (extract_utf16_strings data minChars ++
      if includeAscii then extract_ascii_strings data minChars else [])

/-- The full analysis over one buffer, fixed auxiliary OCR input and fixed
configuration: segmentation, merged text regions and their gap complement,
zero-run gaps with classification, pointer candidates with chains,
size-field candidates, and OCR correlation. -/
def pipeline (data : List ℕ) (minChars : ℕ) (includeAscii : Bool)
    (minGapSize maxDepth : ℕ) (rules : List Rule) (ocrRules : List OcrRule) :=
  (segment (analyzeEntries data minChars includeAscii),
   merge_ranges (textRanges data minChars),
   buildGaps (merge_ranges (textRanges data minChars)) data.length,
   find_all_gaps data minGapSize,
   classify_gaps (find_all_gaps data minGapSize) data,
   extract_all_pointers data 0 none,
   detect_pointer_chains (extract_all_pointers data 0 none) data maxDepth,
   detect_size_fields data,
   match_ocr_rules rules ocrRules)

end Rwz

/-! # Theorems -/

namespace Rwz

/-! ## C7: pointer extraction -/

/-- Membership in `extract_all_pointers` characterized. -/
theorem mem_extract_all_pointers (data : List ℕ) (minVal : ℕ) (maxVal : Option ℕ) (p : Ptr) :
    p ∈ extract_all_pointers data minVal maxVal ↔
      p.offset % 4 = 0 ∧ p.offset < data.length - 3 ∧
        p.value = readLE32 data p.offset ∧ minVal ≤ p.value ∧
        p.value < maxVal.getD data.length ∧
        p.confidence = estimateConfidence data p.offset p.value := by
  unfold extract_all_pointers alignedOffsets
  rw [List.mem_filterMap]
  constructor
  · rintro ⟨o, ho, hpo⟩
    rcases List.mem_filter.mp ho with ⟨hor, hmod⟩
    rw [List.mem_range] at hor
    split at hpo
    · rename_i hcond
      cases hpo
      simp_all
    · exact absurd hpo (by simp)
  · rintro ⟨hmod, hlt, hval, hmin, hmax, hconf⟩
    refine ⟨p.offset, List.mem_filter.mpr ⟨List.mem_range.mpr hlt, by simpa using hmod⟩, ?_⟩
    rw [if_pos ⟨by omega, by omega⟩]
    cases p
    simp_all

/-- C7: For every buffer, pointer extraction (with its default bounds
`min_val = 0`, `max_val = len(data)`) produces a candidate at offset `o` with
value `v` iff `o` is 4-byte aligned, a full word is available at `o`, and the
little-endian word `v` read there lies within `[0, len(data))`. -/
theorem pointer_candidate_iff (data : List ℕ) (o v : ℕ) :
    (∃ p ∈ extract_all_pointers data 0 none, p.offset = o ∧ p.value = v) ↔
      o % 4 = 0 ∧ o + 4 ≤ data.length ∧ v = readLE32 data o ∧ v < data.length := by
  constructor
  · rintro ⟨p, hp, rfl, rfl⟩
    have h := (mem_extract_all_pointers data 0 none p).mp hp
    refine ⟨h.1, by omega, h.2.2.1, by simpa using h.2.2.2.2.1⟩
  · rintro ⟨hmod, hle, rfl, hlt⟩
    exact ⟨⟨o, readLE32 data o, estimateConfidence data o (readLE32 data o)⟩,
      (mem_extract_all_pointers data 0 none _).mpr
        ⟨hmod, show o < data.length - 3 by omega, rfl, Nat.zero_le _,
          show readLE32 data o < (none : Option ℕ).getD data.length by simpa using hlt, rfl⟩,
      rfl, rfl⟩

/-! ## C4: out-of-bounds size fields are excluded -/

/-- Any candidate produced at offset `o` records `o` as its `size_offset`. -/
theorem sizeFieldAt_offset (data : List ℕ) (o : ℕ) (sf : SizeField) :
    sizeFieldAt data o = some sf → sf.size_offset = o := by
  unfold sizeFieldAt mkSizeField
  intro h
  repeat' split at h
  all_goals try exact Option.noConfusion h
  all_goals injection h with h2
  all_goals subst h2
  all_goals rfl

/-- A declared payload that does not fit is rejected by the second guard. -/
theorem sizeFieldAt_overflow (data : List ℕ) (o : ℕ)
    (hov : data.length < o + 4 + readLE32 data o) : sizeFieldAt data o = none := by
  unfold sizeFieldAt
  repeat' split
  all_goals rfl

/-- C4: at every aligned offset whose read size value declares a payload that
does not fit in the remaining buffer (`o + 4 + value > len(data)`),
size-field detection produces no candidate for that offset (and, the
function being total, raises no error). -/
theorem size_field_overflow_excluded (data : List ℕ) (o : ℕ) (_halign : o % 4 = 0)
    (hov : data.length < o + 4 + readLE32 data o) :
    ∀ sf ∈ detect_size_fields data, sf.size_offset ≠ o := by
  intro sf hsf
  rcases List.mem_filterMap.mp hsf with ⟨a, _ha, hfa⟩
  have hao : sf.size_offset = a := sizeFieldAt_offset data a sf hfa
  intro hcontra
  rw [hao] at hcontra
  subst hcontra
  rw [sizeFieldAt_overflow data a hov] at hfa
  exact Option.noConfusion hfa

/-- Witness for C4 at a concrete buffer: the word at offset 0 declares a
100-byte payload in a 12-byte buffer, so no candidate carries
`size_offset = 0`. -/
theorem size_field_overflow_excluded_witness :
    ((detect_size_fields [100, 0, 0, 0, 65, 66, 67, 68, 69, 70, 71, 72]).all
      fun sf => sf.size_offset != 0) = true :=
  List.all_eq_true.mpr fun sf hsf => by
    simpa using
      size_field_overflow_excluded [100, 0, 0, 0, 65, 66, 67, 68, 69, 70, 71, 72] 0
        (by decide) (by decide) sf hsf

/-! ## C10: `find_all_gaps` returns maximal zero runs -/

/-- A nonempty suffix determines the byte at its head and the next suffix. -/
theorem drop_cons_head (l : List ℕ) (n : ℕ) (b : ℕ) (rest : List ℕ)
    (h : l.drop n = b :: rest) : l[n]? = some b ∧ l.drop (n + 1) = rest := by
  constructor
  · have := List.getElem?_drop l n 0
    rw [h] at this
    simpa using this.symm
  · have h2 : (l.drop n).drop 1 = l.drop (n + 1) := by rw [List.drop_drop]
    rw [← h2, h]
    rfl

/-- Invariant of the `find_all_gaps` scanning loop: every recorded gap is a
zero run of sufficient size whose end is the buffer end or a nonzero byte. -/
theorem findGapsGo_sound (data : List ℕ) (minGapSize : ℕ) :
    ∀ (rest : List ℕ) (offset : ℕ) (inGap : Bool) (gapStart : ℕ) (acc : List Gap),
      data.drop offset = rest →
      (inGap = true → gapStart < offset ∧ ∀ j, gapStart ≤ j → j < offset → data[j]? = some 0) →
      (∀ g ∈ acc, zeroRunGap data minGapSize g) →
      ∀ g ∈ findGapsGo minGapSize rest offset inGap gapStart acc,
        zeroRunGap data minGapSize g := by
  intro rest
  induction rest with
  | nil =>
    intro offset inGap gapStart acc hdrop hinv hacc g hg
    have hlen : data.length ≤ offset := by
      have := List.length_drop offset data
      rw [hdrop] at this
      simp at this
      omega
    rw [findGapsGo] at hg
    split at hg
    · rename_i hIn
      split at hg
      · rename_i hsz
        rcases List.mem_append.mp hg with hmem | hmem
        · exact hacc g hmem
        · rcases List.mem_singleton.mp hmem with rfl
          obtain ⟨hgs, hzero⟩ := hinv hIn
          have h01 : data[offset - 1]? = some 0 := hzero (offset - 1) (by omega) (by omega)
          have hlt : offset - 1 < data.length := by
            by_contra hc
            push_neg at hc
            rw [List.getElem?_eq_none (by omega)] at h01
            exact Option.noConfusion h01
          have hoffl : offset = data.length := by omega
          exact ⟨fun j h1 h2 => hzero j h1 h2, hsz, rfl, Or.inl hoffl⟩
      · exact hacc g hg
    · exact hacc g hg
  | cons b rest ih =>
    intro offset inGap gapStart acc hdrop hinv hacc g hg
    obtain ⟨hbyte, hdrop'⟩ := drop_cons_head data offset b rest hdrop
    rw [findGapsGo] at hg
    split at hg
    · rename_i hb0
      subst hb0
      split at hg
      · rename_i hIn
        refine ih (offset + 1) true gapStart acc hdrop' ?_ hacc g hg
        intro _
        obtain ⟨hgs, hzero⟩ := hinv hIn
        exact ⟨by omega, fun j h1 h2 => by
          rcases Nat.lt_or_ge j offset with hj | hj
          · exact hzero j h1 hj
          · have : j = offset := by omega
            subst this
            exact hbyte⟩
      · refine ih (offset + 1) true offset acc hdrop' ?_ hacc g hg
        intro _
        exact ⟨by omega, fun j h1 h2 => by
          have : j = offset := by omega
          subst this
          exact hbyte⟩
    · rename_i hbne
      split at hg
      · rename_i hIn
        refine ih (offset + 1) false gapStart _ hdrop' (by simp) ?_ g hg
        intro g' hg'
        split at hg'
        · rename_i hsz
          rcases List.mem_append.mp hg' with hmem | hmem
          · exact hacc g' hmem
          · rcases List.mem_singleton.mp hmem with rfl
            obtain ⟨hgs, hzero⟩ := hinv hIn
            exact ⟨fun j h1 h2 => hzero j h1 h2, hsz, rfl,
              Or.inr ⟨b, hbyte, hbne⟩⟩
        · exact hacc g' hg'
      · exact ih (offset + 1) false gapStart acc hdrop' (by simp) hacc g hg

/-- C10: every gap returned by `find_all_gaps` covers only zero bytes, has
size `stop - start ≥ min_gap_size`, ends at the buffer end or at a nonzero
byte, and the returned list is sorted by size in non-increasing order. -/
theorem find_all_gaps_spec (data : List ℕ) (minGapSize : ℕ) :
    List.Sorted gapSizeGe (find_all_gaps data minGapSize) ∧
      ∀ g ∈ find_all_gaps data minGapSize, zeroRunGap data minGapSize g := by
  constructor
  · exact List.sorted_insertionSort gapSizeGe _
  · intro g hg
    have hperm : List.Perm (List.insertionSort gapSizeGe (findGapsGo minGapSize data 0 false 0 []))
        (findGapsGo minGapSize data 0 false 0 []) := List.perm_insertionSort gapSizeGe _
    have hmem : g ∈ findGapsGo minGapSize data 0 false 0 [] := hperm.mem_iff.mp hg
    exact findGapsGo_sound data minGapSize data 0 false 0 [] (List.drop_zero data)
      (by simp) (by simp) g hmem

/-- Witness for C10 on a concrete buffer: the single gap of
`[1,0,0,0,0,1]` is `⟨1, 5, 4⟩`; its interior bytes are zero and its size
bound holds. -/
theorem find_all_gaps_spec_witness :
    ([1, 0, 0, 0, 0, 1] : List ℕ)[2]? = some 0 ∧ (4 : ℕ) ≤ (Gap.mk 1 5 4).size :=
  ⟨((find_all_gaps_spec [1, 0, 0, 0, 0, 1] 4).2 ⟨1, 5, 4⟩ (by decide)).1 2 (by decide)
      (by decide),
   ((find_all_gaps_spec [1, 0, 0, 0, 0, 1] 4).2 ⟨1, 5, 4⟩ (by decide)).2.1⟩

/-! ## C8: an all-zero buffer -/

/-- On an all-zero suffix, the scanning loop (already inside a gap) closes
one gap running to the end of the input. -/
theorem findGapsGo_allZero (minGapSize : ℕ) :
    ∀ (l : List ℕ) (offset gapStart : ℕ) (acc : List Gap),
      (∀ b ∈ l, b = 0) →
      findGapsGo minGapSize l offset true gapStart acc =
        if offset + l.length - gapStart ≥ minGapSize then
          acc ++ [⟨gapStart, offset + l.length, offset + l.length - gapStart⟩]
        else acc := by
  intro l
  induction l with
  | nil =>
    intro offset gapStart acc _
    simp [findGapsGo]
  | cons b rest ih =>
    intro offset gapStart acc hz
    have hb : b = 0 := hz b (by simp)
    rw [findGapsGo, if_pos hb, if_pos rfl, ih (offset + 1) gapStart acc (fun x hx => hz x (by simp [hx]))]
    have harith : offset + 1 + rest.length = offset + (b :: rest).length := by
      simp [List.length_cons]; omega
    rw [harith]

/-- Counterexample to C8 as stated: an all-zero buffer of length `1` (which
is `≥ 1`) produces **no** gap at all, under both the `find_all_gaps` default
`min_gap_size = 4` and the CLI default `10`, because the run is shorter than
the minimum gap size. -/
theorem all_zero_short_buffer_no_gap :
    (∀ b ∈ ([0] : List ℕ), b = 0) ∧ ([0] : List ℕ).length ≥ 1 ∧
      find_all_gaps [0] 4 = [] ∧ find_all_gaps [0] 10 = [] := by
  decide

/-- C8 (amended): for every all-zero buffer whose length is at least the
`min_gap_size` parameter (and at least 1), the analysis yields exactly one
gap spanning the whole buffer, and classification puts it in the
`pure_null` bucket alone. -/
theorem all_zero_buffer_single_pure_null_gap (data : List ℕ) (minGapSize : ℕ)
    (hne : data ≠ []) (hz : ∀ b ∈ data, b = 0) (hmin : minGapSize ≤ data.length) :
    find_all_gaps data minGapSize = [⟨0, data.length, data.length⟩] ∧
      classify_gaps (find_all_gaps data minGapSize) data =
        some ⟨[(0, data.length)], [], [], []⟩ := by
  have hfind : find_all_gaps data minGapSize = [⟨0, data.length, data.length⟩] := by
    cases data with
    | nil => exact absurd rfl hne
    | cons b rest =>
      have hb : b = 0 := hz b (by simp)
      unfold find_all_gaps
      rw [findGapsGo, if_pos hb, if_neg (by simp),
        findGapsGo_allZero minGapSize rest 1 0 [] (fun x hx => hz x (by simp [hx]))]
      rw [if_pos (by simp only [List.length_cons] at hmin ⊢; omega)]
      simp only [List.nil_append, List.length_cons]
      have : 1 + rest.length = rest.length + 1 := by omega
      rw [this]
      rfl
  refine ⟨hfind, ?_⟩
  rw [hfind]
  unfold classify_gaps classifyGapsGo
  have hlen0 : 0 < data.length := by
    cases data
    · exact absurd rfl hne
    · simp
  have hregion : sliceRegion data 0 data.length = data := by
    unfold sliceRegion
    simp
  have hclass : classifyGap data ⟨0, data.length, data.length⟩ = some GapClass.pure_null := by
    unfold classifyGap
    rw [hregion]
    rw [if_neg (by omega)]
    have hcount : data.count 0 = data.length := by
      rw [List.count_eq_length]
      intro b hb
      exact (hz b hb).symm
    have hratio : nullRatio data > 95 / 100 := by
      unfold nullRatio
      rw [hcount, div_self (by positivity)]
      norm_num
    rw [if_pos hratio]
  rw [hclass]
  simp [classifyGapsGo]

/-- Witness for the amended C8 on a concrete buffer of four zero bytes. -/
theorem all_zero_buffer_single_pure_null_gap_witness :
    find_all_gaps [0, 0, 0, 0] 4 = [⟨0, 4, 4⟩] ∧
      classify_gaps (find_all_gaps [0, 0, 0, 0] 4) [0, 0, 0, 0] =
        some ⟨[(0, 4)], [], [], []⟩ :=
  all_zero_buffer_single_pure_null_gap [0, 0, 0, 0] 4 (by decide) (by decide) (by decide)

/-! ## C3: chain walks terminate, are depth-bounded, and revisit no offset -/

/-- The chain walk preserves `Nodup` and adds at most `maxDepth - depth`
offsets to the chain. -/
theorem chainGo_invariant (find : ℕ → Option Ptr) (maxDepth : ℕ) :
    ∀ (depth : ℕ) (chain : List ℕ) (target : ℕ),
      chain.Nodup →
      (chainGo find maxDepth depth chain target).1.Nodup ∧
        (chainGo find maxDepth depth chain target).1.length ≤
          chain.length + (maxDepth - depth) := by
  intro depth chain target
  induction depth, chain, target using chainGo.induct find maxDepth with
  | case1 depth chain target hdep p hfind hmem =>
    intro hnd
    rw [chainGo]
    simp only [dif_pos hdep, hfind, if_pos hmem]
    exact ⟨hnd, by omega⟩
  | case2 depth chain target hdep p hfind hmem ih =>
    intro hnd
    rw [chainGo]
    simp only [dif_pos hdep, hfind, if_neg hmem]
    have hnd' : (chain ++ [p.offset]).Nodup := by
      rw [List.nodup_append]
      exact ⟨hnd, List.nodup_singleton _, by simpa using hmem⟩
    obtain ⟨h1, h2⟩ := ih hnd'
    refine ⟨h1, ?_⟩
    have hlen : (chain ++ [p.offset]).length = chain.length + 1 := by simp
    omega
  | case3 depth chain target hdep hfind =>
    intro hnd
    rw [chainGo]
    simp only [dif_pos hdep, hfind]
    exact ⟨hnd, by omega⟩
  | case4 depth chain target hdep =>
    intro hnd
    rw [chainGo]
    simp only [dif_neg hdep]
    exact ⟨hnd, by omega⟩

/-- C3: for every pointer-candidate list, buffer, and max depth, each chain
walk of `detect_pointer_chains` visits no offset twice, its chain length is
bounded by `max_depth + 1` (the start offset plus at most `max_depth`
steps), and reaching an offset already in the current walk records a cycle
and stops the walk.  (Termination itself is structural: `chainGo` is a
total function.) -/
theorem chain_walk_bounded (pointers : List Ptr) (_data : List ℕ)
    (maxDepth startOffset startValue : ℕ) :
    (walkFrom (offsetToPtr pointers) maxDepth startOffset startValue).1.Nodup ∧
      (walkFrom (offsetToPtr pointers) maxDepth startOffset startValue).1.length ≤
        maxDepth + 1 ∧
      ∀ (depth : ℕ) (chain : List ℕ) (target : ℕ) (p : Ptr),
        depth < maxDepth → offsetToPtr pointers target = some p → p.offset ∈ chain →
        chainGo (offsetToPtr pointers) maxDepth depth chain target =
          (chain, some ⟨ChainType.cycle, chain, some chain.length, depth, none⟩) := by
  obtain ⟨h1, h2⟩ := chainGo_invariant (offsetToPtr pointers) maxDepth 0 [startOffset]
    startValue (List.nodup_singleton _)
  refine ⟨h1, by
    unfold walkFrom
    simp only [List.length_singleton, Nat.sub_zero] at h2
    omega, ?_⟩
  intro depth chain target p hdep hfind hmem
  rw [chainGo]
  simp only [dif_pos hdep, hfind, if_pos hmem]

/-- Witness for C3: the self-loop pointer at offset 8 (the spec's scenario)
is detected as a cycle of length 1 at depth 0. -/
theorem chain_walk_bounded_witness :
    chainGo (offsetToPtr [⟨8, 8, 0⟩]) 10 0 [8] 8 =
      ([8], some ⟨ChainType.cycle, [8], some 1, 0, none⟩) :=
  (chain_walk_bounded [⟨8, 8, 0⟩] [] 10 8 8).2.2 0 [8] 8 ⟨8, 8, 0⟩ (by decide)
    (by decide) (by decide)

/-! ## C5: segmentation into records anchored on bracket headers -/

/-- `findIdxFrom` never returns an index below its starting index. -/
theorem findIdxFrom_ge (p : Char → Bool) :
    ∀ (s : List Char) (i j : ℕ), findIdxFrom p s i = some j → i ≤ j := by
  intro s
  induction s with
  | nil => intro i j h; exact absurd h (by simp [findIdxFrom])
  | cons c rest ih =>
    intro i j h
    rw [findIdxFrom] at h
    split at h
    · cases Option.some.inj h; exact le_refl _
    · have := ih (i + 1) j h
      omega

/-- `findIdxFrom` finds an index below `i + bound` iff a matching character
occurs within the first `bound` positions. -/
theorem findIdxFrom_lt_iff (p : Char → Bool) :
    ∀ (s : List Char) (i bound : ℕ),
      (∃ j, findIdxFrom p s i = some j ∧ j < i + bound) ↔
        ∃ k, k < bound ∧ ∃ c, s.get? k = some c ∧ p c = true := by
  intro s
  induction s with
  | nil =>
    intro i bound
    simp [findIdxFrom]
  | cons c rest ih =>
    intro i bound
    rw [findIdxFrom]
    split
    · rename_i hp
      constructor
      · rintro ⟨j, hj, hlt⟩
        cases Option.some.inj hj
        exact ⟨0, by omega, c, by simp, hp⟩
      · rintro ⟨k, hk, c', _, _⟩
        exact ⟨i, rfl, by omega⟩
    · rename_i hp
      cases bound with
      | zero =>
        constructor
        · rintro ⟨j, hj, hlt⟩
          have := findIdxFrom_ge p rest (i + 1) j hj
          omega
        · rintro ⟨k, hk, _⟩
          omega
      | succ n =>
        rw [show i + (n + 1) = (i + 1) + n by omega]
        rw [ih (i + 1) n]
        constructor
        · rintro ⟨k, hk, c', hc', hpc'⟩
          exact ⟨k + 1, by omega, c', by simpa using hc', hpc'⟩
        · rintro ⟨k, hk, c', hc', hpc'⟩
          cases k with
          | zero =>
            simp at hc'
            subst hc'
            simp [hpc'] at hp
          | succ m =>
            exact ⟨m, by omega, c', by simpa using hc', hpc'⟩

/-- The header test characterized: the decoded text starts with `'['` and
contains a `']'` within the first 80 characters. -/
theorem is_rule_header_iff (s : List Char) :
    is_rule_header s = true ↔
      s.head? = some '[' ∧ ∃ k, k < 80 ∧ s.get? k = some ']' := by
  cases s with
  | nil => simp [is_rule_header]
  | cons c rest =>
    rw [is_rule_header]
    by_cases hc : c = '['
    · subst hc
      rw [if_neg (by simp)]
      have hiff := findIdxFrom_lt_iff (fun ch => ch == ']') ('[' :: rest) 0 80
      simp only [Nat.zero_add] at hiff
      constructor
      · intro h
        split at h
        · rename_i j hj
          obtain ⟨k, hk, c', hc', hpc'⟩ := hiff.mp ⟨j, hj, by simpa using h⟩
          refine ⟨rfl, k, hk, ?_⟩
          rwa [show c' = ']' by simpa using hpc'] at hc'
        · exact absurd h (by simp)
      · rintro ⟨_, k, hk, hget⟩
        obtain ⟨j, hj, hlt⟩ := hiff.mpr ⟨k, hk, ']', hget, by simp⟩
        rw [hj]
        simpa using hlt
    · rw [if_pos (by simpa using hc)]
      constructor
      · intro h; exact absurd h (by simp)
      · rintro ⟨hhead, _⟩
        simp at hhead
        exact absurd hhead hc

/-- The segmentation loop with an open record: the record collects the
following non-header entries, then the remaining records follow. -/
theorem segLoop_some :
    ∀ (entries : List (ℕ × List Char)) (r : RuleSeg) (rules : List RuleSeg)
      (pre : List (ℕ × List Char)),
      segLoop entries (some r) rules pre =
        (rules ++ ⟨r.title, r.entries ++ entries.takeWhile notHeader⟩ ::
            specRecords (entries.dropWhile notHeader),
          pre) := by
  intro entries
  induction entries with
  | nil =>
    intro r rules pre
    simp [segLoop, specRecords]
  | cons e rest ih =>
    intro r rules pre
    obtain ⟨o, s⟩ := e
    rw [segLoop]
    by_cases hh : is_rule_header s
    · rw [if_pos hh, ih]
      have hnh : notHeader (o, s) = false := by simp [notHeader, hh]
      have hspec : specRecords ((o, s) :: rest) =
          ⟨s, (o, s) :: rest.takeWhile notHeader⟩ :: specRecords (rest.dropWhile notHeader) := by
        rw [specRecords.eq_def]
        simp [hh]
      rw [List.takeWhile_cons, List.dropWhile_cons]
      simp only [hnh, Bool.false_eq_true, if_false]
      rw [hspec]
      simp
    · rw [if_neg hh, ih]
      have hnh : notHeader (o, s) = true := by simp [notHeader, hh]
      rw [List.takeWhile_cons, List.dropWhile_cons]
      simp only [hnh]
      simp

/-- The segmentation loop with no open record: leading non-header entries
join the preamble. -/
theorem segLoop_none :
    ∀ (entries : List (ℕ × List Char)) (rules : List RuleSeg)
      (pre : List (ℕ × List Char)),
      segLoop entries none rules pre =
        (rules ++ specRecords (entries.dropWhile notHeader),
          pre ++ entries.takeWhile notHeader) := by
  intro entries
  induction entries with
  | nil =>
    intro rules pre
    simp [segLoop, specRecords]
  | cons e rest ih =>
    intro rules pre
    obtain ⟨o, s⟩ := e
    rw [segLoop]
    by_cases hh : is_rule_header s
    · rw [if_pos hh, segLoop_some]
      have hnh : notHeader (o, s) = false := by simp [notHeader, hh]
      have hspec : specRecords ((o, s) :: rest) =
          ⟨s, (o, s) :: rest.takeWhile notHeader⟩ :: specRecords (rest.dropWhile notHeader) := by
        rw [specRecords.eq_def]
        simp [hh]
      rw [List.takeWhile_cons, List.dropWhile_cons]
      simp only [hnh, Bool.false_eq_true, if_false]
      rw [hspec]
      simp
    · rw [if_neg hh, ih]
      have hnh : notHeader (o, s) = true := by simp [notHeader, hh]
      rw [List.takeWhile_cons, List.dropWhile_cons]
      simp only [hnh]
      simp

/-- C5: segmentation of the offset-ordered entries equals its specification
— entries before the first header form the preamble attached to no record;
each header opens a record holding the header entry and the following
non-header entries until the next header — and an entry is a header exactly
when its text starts with `'['` and contains `']'` within the first 80
characters. -/
theorem segmentation_spec (entries : List (ℕ × List Char)) :
    segment entries =
      (specRecords (entries.dropWhile notHeader), entries.takeWhile notHeader) ∧
      ∀ s : List Char,
        is_rule_header s = true ↔ s.head? = some '[' ∧ ∃ k, k < 80 ∧ s.get? k = some ']' := by
  refine ⟨?_, is_rule_header_iff⟩
  unfold segment
  rw [segLoop_none]
  simp

/-! ## C1: merged regions and gaps partition the buffer -/

/-- A printable run is no longer than the input. -/
theorem asciiRunLen_le (l : List ℕ) : asciiRunLen l ≤ l.length := by
  induction l with
  | nil => simp [asciiRunLen]
  | cons b rest ih =>
    rw [asciiRunLen]
    split
    · simp only [List.length_cons]; omega
    · omega

/-- A pair run covers at most the input bytes. -/
theorem lePairs_le : ∀ l : List ℕ, 2 * lePairs l ≤ l.length
  | [] => by simp [lePairs]
  | [a] => by simp [lePairs]
  | a :: b :: rest => by
    have ih := lePairs_le rest
    rw [lePairs]
    split
    all_goals simp only [List.length_cons]
    all_goals omega

/-- A pair run covers at most the input bytes. -/
theorem bePairs_le : ∀ l : List ℕ, 2 * bePairs l ≤ l.length
  | [] => by simp [bePairs]
  | [a] => by simp [bePairs]
  | a :: b :: rest => by
    have ih := bePairs_le rest
    rw [bePairs]
    split
    all_goals simp only [List.length_cons]
    all_goals omega

/-- Every ASCII match is a well-formed interval inside the scanned suffix. -/
theorem asciiScan_bounds (minRun : ℕ) :
    ∀ (l : List ℕ) (i : ℕ), ∀ p ∈ asciiScan minRun l i,
      i ≤ p.1 ∧ p.1 ≤ p.2 ∧ p.2 ≤ i + l.length := by
  intro l i
  induction l, i using asciiScan.induct minRun with
  | case1 i => simp [asciiScan]
  | case2 b rest i hr ih =>
    intro p hp
    rw [asciiScan, if_pos hr] at hp
    have h1 : asciiRunLen (b :: rest) ≤ rest.length + 1 := by
      have := asciiRunLen_le (b :: rest)
      simpa using this
    rcases List.mem_cons.mp hp with rfl | hp
    · refine ⟨le_refl _, by omega, by simp only [List.length_cons]; omega⟩
    · have h3 := ih p hp
      have h2 : (List.drop (asciiRunLen (b :: rest) - 1) rest).length =
          rest.length - (asciiRunLen (b :: rest) - 1) := List.length_drop _ _
      simp only [List.length_cons]
      omega
  | case3 b rest i hr ih =>
    intro p hp
    rw [asciiScan, if_neg hr] at hp
    have := ih p hp
    simp only [List.length_cons]
    omega

/-- Every UTF-16LE match is a well-formed interval inside the scanned suffix. -/
theorem u16leScan_bounds (minPairs : ℕ) :
    ∀ (l : List ℕ) (i : ℕ), ∀ p ∈ u16leScan minPairs l i,
      i ≤ p.1 ∧ p.1 ≤ p.2 ∧ p.2 ≤ i + l.length := by
  intro l i
  induction l, i using u16leScan.induct minPairs with
  | case1 i => simp [u16leScan]
  | case2 b rest i hr ih =>
    intro p hp
    rw [u16leScan, if_pos hr] at hp
    have h1 : 2 * lePairs (b :: rest) ≤ rest.length + 1 := by
      have := lePairs_le (b :: rest)
      simpa using this
    rcases List.mem_cons.mp hp with rfl | hp
    · refine ⟨le_refl _, by omega, by simp only [List.length_cons]; omega⟩
    · have h3 := ih p hp
      have h2 : (List.drop (2 * lePairs (b :: rest) - 1) rest).length =
          rest.length - (2 * lePairs (b :: rest) - 1) := List.length_drop _ _
      simp only [List.length_cons]
      omega
  | case3 b rest i hr ih =>
    intro p hp
    rw [u16leScan, if_neg hr] at hp
    have := ih p hp
    simp only [List.length_cons]
    omega

/-- Every UTF-16BE match is a well-formed interval inside the scanned suffix. -/
theorem u16beScan_bounds (minPairs : ℕ) :
    ∀ (l : List ℕ) (i : ℕ), ∀ p ∈ u16beScan minPairs l i,
      i ≤ p.1 ∧ p.1 ≤ p.2 ∧ p.2 ≤ i + l.length := by
  intro l i
  induction l, i using u16beScan.induct minPairs with
  | case1 i => simp [u16beScan]
  | case2 b rest i hr ih =>
    intro p hp
    rw [u16beScan, if_pos hr] at hp
    have h1 : 2 * bePairs (b :: rest) ≤ rest.length + 1 := by
      have := bePairs_le (b :: rest)
      simpa using this
    rcases List.mem_cons.mp hp with rfl | hp
    · refine ⟨le_refl _, by omega, by simp only [List.length_cons]; omega⟩
    · have h3 := ih p hp
      have h2 : (List.drop (2 * bePairs (b :: rest) - 1) rest).length =
          rest.length - (2 * bePairs (b :: rest) - 1) := List.length_drop _ _
      simp only [List.length_cons]
      omega
  | case3 b rest i hr ih =>
    intro p hp
    rw [u16beScan, if_neg hr] at hp
    have := ih p hp
    simp only [List.length_cons]
    omega

/-- All collected text ranges are well-formed intervals within the buffer. -/
theorem textRanges_bounds (data : List ℕ) (minChars : ℕ) :
    ∀ p ∈ textRanges data minChars, p.1 ≤ p.2 ∧ p.2 ≤ data.length := by
  intro p hp
  unfold textRanges at hp
  rcases List.mem_append.mp hp with hp' | hp'
  · rcases List.mem_append.mp hp' with hp'' | hp''
    · have := u16leScan_bounds 2 data 0 p (List.mem_of_mem_filter hp'')
      exact ⟨this.2.1, by omega⟩
    · have := u16beScan_bounds 2 data 0 p (List.mem_of_mem_filter hp'')
      exact ⟨this.2.1, by omega⟩
  · have := asciiScan_bounds 2 data 0 p (List.mem_of_mem_filter hp')
    exact ⟨this.2.1, by omega⟩

/-- `covers` over an empty interval list. -/
theorem covers_nil (x : ℕ) : ¬covers [] x := by simp [covers]

/-- `covers` over a cons. -/
theorem covers_cons (p : ℕ × ℕ) (l : List (ℕ × ℕ)) (x : ℕ) :
    covers (p :: l) x ↔ (p.1 ≤ x ∧ x < p.2) ∨ covers l x := by
  unfold covers
  constructor
  · rintro ⟨q, hq, h1, h2⟩
    rcases List.mem_cons.mp hq with rfl | hq'
    · exact Or.inl ⟨h1, h2⟩
    · exact Or.inr ⟨q, hq', h1, h2⟩
  · rintro (⟨h1, h2⟩ | ⟨q, hq, h1, h2⟩)
    · exact ⟨p, List.mem_cons_self _ _, h1, h2⟩
    · exact ⟨q, List.mem_cons_of_mem _ hq, h1, h2⟩

/-- `covers` over an append. -/
theorem covers_append (l₁ l₂ : List (ℕ × ℕ)) (x : ℕ) :
    covers (l₁ ++ l₂) x ↔ covers l₁ x ∨ covers l₂ x := by
  unfold covers
  constructor
  · rintro ⟨q, hq, h1, h2⟩
    rcases List.mem_append.mp hq with hq' | hq'
    · exact Or.inl ⟨q, hq', h1, h2⟩
    · exact Or.inr ⟨q, hq', h1, h2⟩
  · rintro (⟨q, hq, h1, h2⟩ | ⟨q, hq, h1, h2⟩)
    · exact ⟨q, List.mem_append_left _ hq, h1, h2⟩
    · exact ⟨q, List.mem_append_right _ hq, h1, h2⟩

/-- `covers` is invariant under permutation. -/
theorem covers_perm {l l' : List (ℕ × ℕ)} (h : List.Perm l l') (x : ℕ) :
    covers l x ↔ covers l' x := by
  unfold covers
  exact ⟨fun ⟨q, hq, h2⟩ => ⟨q, h.mem_iff.mp hq, h2⟩,
    fun ⟨q, hq, h2⟩ => ⟨q, h.mem_iff.mpr hq, h2⟩⟩

/-- Intervals produced by the merge loop start at or after the current
interval's start and are well-formed. -/
theorem mergeAux_wf :
    ∀ (rs : List (ℕ × ℕ)) (cs ce : ℕ),
      cs ≤ ce → (∀ p ∈ rs, p.1 ≤ p.2) → rs.Pairwise (fun a b => a.1 ≤ b.1) →
      (∀ p ∈ rs, cs ≤ p.1) →
      ∀ q ∈ mergeAux (cs, ce) rs, cs ≤ q.1 ∧ q.1 ≤ q.2 := by
  intro rs
  induction rs with
  | nil =>
    intro cs ce h1 _ _ _ q hq
    rw [mergeAux] at hq
    rcases List.mem_singleton.mp hq with rfl
    exact ⟨le_refl _, h1⟩
  | cons r rest ih =>
    intro cs ce h1 hwf hpw hge q hq
    obtain ⟨s, e⟩ := r
    rw [mergeAux] at hq
    split at hq
    · exact ih cs (max ce e) (le_trans h1 (le_max_left _ _))
        (fun p hp => hwf p (by simp [hp])) (List.Pairwise.sublist (by simp) hpw)
        (fun p hp => hge p (by simp [hp])) q hq
    · rcases List.mem_cons.mp hq with rfl | hq'
      · exact ⟨le_refl _, h1⟩
      · have hs : cs ≤ s := hge (s, e) (by simp)
        have h2 := ih s e (hwf (s, e) (by simp))
          (fun p hp => hwf p (by simp [hp])) (List.Pairwise.sublist (by simp) hpw)
          (fun p hp => (List.pairwise_cons.mp hpw).1 p hp) q hq'
        exact ⟨le_trans hs h2.1, h2.2⟩

/-- The merge loop produces pairwise separated intervals (each interval ends
strictly before the next begins). -/
theorem mergeAux_pairwise :
    ∀ (rs : List (ℕ × ℕ)) (cs ce : ℕ),
      cs ≤ ce → (∀ p ∈ rs, p.1 ≤ p.2) → rs.Pairwise (fun a b => a.1 ≤ b.1) →
      (∀ p ∈ rs, cs ≤ p.1) →
      (mergeAux (cs, ce) rs).Pairwise (fun a b => a.2 < b.1) := by
  intro rs
  induction rs with
  | nil =>
    intro cs ce _ _ _ _
    rw [mergeAux]
    exact List.pairwise_singleton _ _
  | cons r rest ih =>
    intro cs ce h1 hwf hpw hge
    obtain ⟨s, e⟩ := r
    rw [mergeAux]
    split
    · exact ih cs (max ce e) (le_trans h1 (le_max_left _ _))
        (fun p hp => hwf p (by simp [hp])) (List.Pairwise.sublist (by simp) hpw)
        (fun p hp => hge p (by simp [hp]))
    · rename_i hgt
      rw [List.pairwise_cons]
      constructor
      · intro q hq
        have h2 := mergeAux_wf rest s e (hwf (s, e) (by simp))
          (fun p hp => hwf p (by simp [hp])) (List.Pairwise.sublist (by simp) hpw)
          (fun p hp => (List.pairwise_cons.mp hpw).1 p hp) q hq
        omega
      · exact ih s e (hwf (s, e) (by simp)) (fun p hp => hwf p (by simp [hp]))
          (List.Pairwise.sublist (by simp) hpw)
          (fun p hp => (List.pairwise_cons.mp hpw).1 p hp)

/-- The merge loop never extends an interval past the common end bound. -/
theorem mergeAux_endBound :
    ∀ (rs : List (ℕ × ℕ)) (cs ce L : ℕ), ce ≤ L → (∀ p ∈ rs, p.2 ≤ L) →
      ∀ q ∈ mergeAux (cs, ce) rs, q.2 ≤ L := by
  intro rs
  induction rs with
  | nil =>
    intro cs ce L h1 _ q hq
    rw [mergeAux] at hq
    rcases List.mem_singleton.mp hq with rfl
    exact h1
  | cons r rest ih =>
    intro cs ce L h1 hL q hq
    obtain ⟨s, e⟩ := r
    rw [mergeAux] at hq
    split at hq
    · exact ih cs (max ce e) L (by
        have := hL (s, e) (by simp)
        simp only [max_le_iff]
        exact ⟨h1, this⟩) (fun p hp => hL p (by simp [hp])) q hq
    · rcases List.mem_cons.mp hq with rfl | hq'
      · exact h1
      · exact ih s e L (hL (s, e) (by simp)) (fun p hp => hL p (by simp [hp])) q hq'

/-- Coverage is preserved by the merge loop: a point is covered by the merge
of the current interval with the remaining (sorted) ranges iff it lies in
the current interval or is covered by a remaining range. -/
theorem mergeAux_covers :
    ∀ (rs : List (ℕ × ℕ)) (cs ce : ℕ),
      cs ≤ ce → (∀ p ∈ rs, p.1 ≤ p.2) → rs.Pairwise (fun a b => a.1 ≤ b.1) →
      (∀ p ∈ rs, cs ≤ p.1) →
      ∀ x, covers (mergeAux (cs, ce) rs) x ↔ ((cs ≤ x ∧ x < ce) ∨ covers rs x) := by
  intro rs
  induction rs with
  | nil =>
    intro cs ce _ _ _ _ x
    rw [mergeAux, covers_cons]
  | cons r rest ih =>
    intro cs ce h1 hwf hpw hge x
    obtain ⟨s, e⟩ := r
    rw [mergeAux]
    split
    · rename_i hle
      rw [ih cs (max ce e) (le_trans h1 (le_max_left _ _))
        (fun p hp => hwf p (by simp [hp])) (List.Pairwise.sublist (by simp) hpw)
        (fun p hp => hge p (by simp [hp])) x]
      rw [covers_cons]
      have hs : cs ≤ s := hge (s, e) (by simp)
      constructor
      · rintro (⟨ha, hb⟩ | hc)
        · rcases Nat.lt_or_ge x ce with hx | hx
          · exact Or.inl ⟨ha, hx⟩
          · exact Or.inr (Or.inl ⟨by omega, by omega⟩)
        · exact Or.inr (Or.inr hc)
      · rintro (⟨ha, hb⟩ | ⟨ha, hb⟩ | hc)
        · exact Or.inl ⟨ha, by omega⟩
        · exact Or.inl ⟨by omega, by omega⟩
        · exact Or.inr hc
    · rename_i hgt
      rw [covers_cons]
      rw [ih s e (hwf (s, e) (by simp)) (fun p hp => hwf p (by simp [hp]))
        (List.Pairwise.sublist (by simp) hpw)
        (fun p hp => (List.pairwise_cons.mp hpw).1 p hp) x]
      rw [covers_cons]

/-- `merge_ranges` of well-formed, bounded ranges: the merged intervals are
sorted, pairwise separated, well-formed, bounded, and cover exactly the
points the input ranges cover. -/
theorem merge_ranges_spec (ranges : List (ℕ × ℕ)) (L : ℕ)
    (hwf : ∀ p ∈ ranges, p.1 ≤ p.2) (hL : ∀ p ∈ ranges, p.2 ≤ L) :
    (merge_ranges ranges).Pairwise (fun a b => a.2 < b.1) ∧
      (∀ q ∈ merge_ranges ranges, q.1 ≤ q.2 ∧ q.2 ≤ L) ∧
      (∀ x, covers (merge_ranges ranges) x ↔ covers ranges x) := by
  have hperm : List.Perm (List.insertionSort lexLe ranges) ranges :=
    List.perm_insertionSort lexLe ranges
  have hsorted : List.Sorted lexLe (List.insertionSort lexLe ranges) :=
    List.sorted_insertionSort lexLe ranges
  have hwf' : ∀ p ∈ List.insertionSort lexLe ranges, p.1 ≤ p.2 :=
    fun p hp => hwf p (hperm.mem_iff.mp hp)
  have hL' : ∀ p ∈ List.insertionSort lexLe ranges, p.2 ≤ L :=
    fun p hp => hL p (hperm.mem_iff.mp hp)
  have hfst : (List.insertionSort lexLe ranges).Pairwise (fun a b => a.1 ≤ b.1) :=
    hsorted.imp (fun h => by unfold lexLe at h; omega)
  have hcov : ∀ x, covers (List.insertionSort lexLe ranges) x ↔ covers ranges x :=
    fun x => covers_perm hperm x
  unfold merge_ranges
  rcases hs : List.insertionSort lexLe ranges with _ | ⟨r, rs⟩
  · rw [hs] at hcov
    refine ⟨List.Pairwise.nil, by simp, fun x => ?_⟩
    rw [← hcov x]
  · rw [hs] at hwf' hL' hfst hcov
    obtain ⟨s, e⟩ := r
    have h1 : s ≤ e := hwf' (s, e) (by simp)
    have hwfr : ∀ p ∈ rs, p.1 ≤ p.2 := fun p hp => hwf' p (by simp [hp])
    have hLr : ∀ p ∈ rs, p.2 ≤ L := fun p hp => hL' p (by simp [hp])
    have hpwr : rs.Pairwise (fun a b => a.1 ≤ b.1) := List.Pairwise.sublist (by simp) hfst
    have hger : ∀ p ∈ rs, s ≤ p.1 := fun p hp => (List.pairwise_cons.mp hfst).1 p hp
    refine ⟨mergeAux_pairwise rs s e h1 hwfr hpwr hger, ?_, ?_⟩
    · intro q hq
      refine ⟨(mergeAux_wf rs s e h1 hwfr hpwr hger q hq).2, ?_⟩
      exact mergeAux_endBound rs s e L (hL' (s, e) (by simp)) hLr q hq
    · intro x
      rw [mergeAux_covers rs s e h1 hwfr hpwr hger x, ← hcov x, covers_cons]

/-- The gap-construction loop partitions `[last, L)` between the merged
intervals and the produced gaps: together they cover exactly `[last, L)`,
they never overlap, and the gaps are sorted, disjoint and well-formed. -/
theorem gapsLoop_spec (L : ℕ) :
    ∀ (merged : List (ℕ × ℕ)) (last : ℕ),
      merged.Pairwise (fun a b => a.2 < b.1) →
      (∀ p ∈ merged, p.1 ≤ p.2 ∧ p.2 ≤ L) →
      (∀ p ∈ merged, last ≤ p.1) →
      (∀ x, (covers (gapsLoop L last merged) x ∨ covers merged x) ↔ (last ≤ x ∧ x < L)) ∧
        (∀ x, ¬(covers (gapsLoop L last merged) x ∧ covers merged x)) ∧
        (gapsLoop L last merged).Pairwise (fun a b => a.2 ≤ b.1) ∧
        (∀ q ∈ gapsLoop L last merged, last ≤ q.1 ∧ q.1 ≤ q.2) := by
  intro merged
  induction merged with
  | nil =>
    intro last _ _ _
    rw [gapsLoop]
    split
    · rename_i hlt
      refine ⟨fun x => ?_, fun x => ?_, List.pairwise_singleton _ _, fun q hq => ?_⟩
      · rw [covers_cons]
        constructor
        · rintro ((⟨h1, h2⟩ | hc) | hc)
          · exact ⟨h1, h2⟩
          · exact absurd hc (covers_nil x)
          · exact absurd hc (covers_nil x)
        · intro ⟨h1, h2⟩
          exact Or.inl (Or.inl ⟨h1, h2⟩)
      · rintro ⟨_, hc⟩
        exact covers_nil x hc
      · rcases List.mem_singleton.mp hq with rfl
        exact ⟨le_refl _, by omega⟩
    · rename_i hge
      refine ⟨fun x => ?_, fun x => ?_, List.Pairwise.nil, by simp⟩
      · constructor
        · rintro (hc | hc) <;> exact absurd hc (covers_nil x)
        · intro ⟨h1, h2⟩
          omega
      · rintro ⟨hc, _⟩
        exact covers_nil x hc
  | cons r tl ih =>
    intro last hpw hwf hge
    obtain ⟨s, e⟩ := r
    have hls : last ≤ s := hge (s, e) (by simp)
    have hse : s ≤ e := (hwf (s, e) (by simp)).1
    have heL : e ≤ L := (hwf (s, e) (by simp)).2
    have hml : max last e = e := by omega
    have htl : ∀ p ∈ tl, e ≤ p.1 := fun p hp =>
      le_of_lt ((List.pairwise_cons.mp hpw).1 p hp)
    obtain ⟨covIH, disjIH, pwIH, wfIH⟩ :=
      ih e (List.Pairwise.sublist (by simp) hpw) (fun p hp => hwf p (by simp [hp])) htl
    rw [gapsLoop, hml]
    have hpre : ∀ x, covers (if last < s then [(last, s)] else []) x ↔ (last ≤ x ∧ x < s) := by
      intro x
      split
      · rw [covers_cons]
        constructor
        · rintro (⟨h1, h2⟩ | hc)
          · exact ⟨h1, h2⟩
          · exact absurd hc (covers_nil x)
        · intro ⟨h1, h2⟩
          exact Or.inl ⟨h1, h2⟩
      · rename_i hns
        constructor
        · intro hc
          exact absurd hc (covers_nil x)
        · intro ⟨h1, h2⟩
          exact absurd (by omega : last < s) hns
    refine ⟨fun x => ?_, fun x => ?_, ?_, fun q hq => ?_⟩
    · rw [covers_append, hpre x, covers_cons]
      constructor
      · rintro ((⟨h1, h2⟩ | hA) | (⟨h1, h2⟩ | hB))
        · exact ⟨h1, by omega⟩
        · have := (covIH x).mp (Or.inl hA)
          exact ⟨by omega, this.2⟩
        · exact ⟨by omega, by omega⟩
        · have := (covIH x).mp (Or.inr hB)
          exact ⟨by omega, this.2⟩
      · intro ⟨h1, h2⟩
        rcases Nat.lt_or_ge x s with hx | hx
        · exact Or.inl (Or.inl ⟨h1, hx⟩)
        · rcases Nat.lt_or_ge x e with hx' | hx'
          · exact Or.inr (Or.inl ⟨hx, hx'⟩)
          · rcases (covIH x).mpr ⟨hx', h2⟩ with hA | hB
            · exact Or.inl (Or.inr hA)
            · exact Or.inr (Or.inr hB)
    · rintro ⟨hg, hm⟩
      rw [covers_append, hpre x] at hg
      rw [covers_cons] at hm
      rcases hg with ⟨h1, h2⟩ | hA
      · rcases hm with ⟨h3, h4⟩ | hB
        · omega
        · have := (covIH x).mp (Or.inr hB)
          omega
      · have hex := (covIH x).mp (Or.inl hA)
        rcases hm with ⟨h3, h4⟩ | hB
        · omega
        · exact disjIH x ⟨hA, hB⟩
    · rw [List.pairwise_append]
      refine ⟨?_, pwIH, ?_⟩
      · split
        · exact List.pairwise_singleton _ _
        · exact List.Pairwise.nil
      · intro a ha b hb
        have hb1 := (wfIH b hb).1
        split at ha
        · rcases List.mem_singleton.mp ha with rfl
          simp only []
          omega
        · exact absurd ha (List.not_mem_nil a)
    · rcases List.mem_append.mp hq with hq' | hq'
      · split at hq'
        · rcases List.mem_singleton.mp hq' with rfl
          exact ⟨le_refl _, by omega⟩
        · exact absurd hq' (List.not_mem_nil q)
      · have := wfIH q hq'
        exact ⟨by omega, this.2⟩

/-- C1: for every buffer and minimum run length, the merged text-region
intervals and the gap intervals computed from them partition
`[0, len(buffer))` exactly: each list is sorted and pairwise disjoint
(merged regions strictly separated, gaps non-overlapping), every point below
`len(buffer)` is covered by exactly one of the two lists, and no point is
covered by both. -/
theorem region_gap_partition (data : List ℕ) (minChars : ℕ) :
    (merge_ranges (textRanges data minChars)).Pairwise (fun a b => a.2 < b.1) ∧
      (buildGaps (merge_ranges (textRanges data minChars)) data.length).Pairwise
        (fun a b => a.2 ≤ b.1) ∧
      (∀ x, x < data.length ↔
        (covers (merge_ranges (textRanges data minChars)) x ∨
          covers (buildGaps (merge_ranges (textRanges data minChars)) data.length) x)) ∧
      ∀ x, ¬(covers (merge_ranges (textRanges data minChars)) x ∧
        covers (buildGaps (merge_ranges (textRanges data minChars)) data.length) x) := by
  have hb := textRanges_bounds data minChars
  obtain ⟨hpw, hwf, _⟩ := merge_ranges_spec (textRanges data minChars) data.length
    (fun p hp => (hb p hp).1) (fun p hp => (hb p hp).2)
  obtain ⟨cov2, disj2, pw2, _⟩ := gapsLoop_spec data.length
    (merge_ranges (textRanges data minChars)) 0 hpw hwf (fun p _ => Nat.zero_le _)
  refine ⟨hpw, pw2, fun x => ?_, fun x => ?_⟩
  · constructor
    · intro hx
      rcases (cov2 x).mpr ⟨Nat.zero_le _, hx⟩ with h | h
      · exact Or.inr h
      · exact Or.inl h
    · intro hx
      rcases hx with h | h
      · exact ((cov2 x).mp (Or.inr h)).2
      · exact ((cov2 x).mp (Or.inl h)).2
  · rintro ⟨h1, h2⟩
    exact disj2 x ⟨h2, h1⟩

/-- Witness for C1 on a concrete buffer (`b"AB\x00C"`): position 3 is
covered by a region or a gap. -/
theorem region_gap_partition_witness :
    covers (merge_ranges (textRanges [65, 66, 0, 67] 2)) 3 ∨
      covers (buildGaps (merge_ranges (textRanges [65, 66, 0, 67] 2))
        ([65, 66, 0, 67] : List ℕ).length) 3 :=
  ((region_gap_partition [65, 66, 0, 67] 2).2.2.1 3).mp (by decide)

/-! ## C6: OCR correlation scoring and assignment -/

/-- `len(set(a) & set(b))` equals the cardinality of the Finset
intersection. -/
theorem interCard_eq (a b : List (List Char)) :
    interCard a b = (a.toFinset ∩ b.toFinset).card := by
  unfold interCard
  have hnd : (a.dedup.filter fun x => decide (x ∈ b)).Nodup :=
    (List.nodup_dedup a).filter _
  rw [← List.toFinset_card_of_nodup hnd]
  congr 1
  ext x
  simp [List.mem_filter, List.mem_dedup, Finset.mem_inter]

/-- The truthiness-guarded title test, characterized. -/
theorem titleHit_iff (r : Rule) (o : OcrRule) :
    titleHit r o = true ↔
      normalize_token r.title ≠ [] ∧
        claimTitleMatch (normalize_token r.title) (normalize_token o.name) := by
  unfold titleHit claimTitleMatch
  simp [List.isEmpty_iff, or_assoc]

/-- The pair score computed by the code equals the claim formula **with** the
nonempty-normalized-title guard on the title indicator. -/
theorem score_eq_formula (r : Rule) (o : OcrRule) :
    score r o =
      (if normalize_token r.title ≠ [] ∧
          claimTitleMatch (normalize_token r.title) (normalize_token o.name)
       then 10 else 0) +
        2 * (o.emails.toFinset ∩ r.emails.toFinset).card +
        ((o.subject_keywords.map normalize_token).toFinset ∩
            (r.keywords.map normalize_token).toFinset).card := by
  unfold score
  rw [interCard_eq, interCard_eq]
  by_cases h : titleHit r o = true
  · rw [if_pos h, if_pos ((titleHit_iff r o).mp h)]
  · rw [if_neg h, if_neg (fun hc => h ((titleHit_iff r o).mpr hc))]

/-- The best score never decreases and bounds every listed score. -/
theorem bestLoop_ub :
    ∀ (l : List (ℕ × ℕ)) (bi : Option ℕ) (bs : ℕ),
      bs ≤ (bestLoop l bi bs).2 ∧ ∀ p ∈ l, p.2 ≤ (bestLoop l bi bs).2 := by
  intro l
  induction l with
  | nil =>
    intro bi bs
    exact ⟨le_refl _, by simp⟩
  | cons p rest ih =>
    intro bi bs
    obtain ⟨i, s⟩ := p
    rw [bestLoop]
    split
    · rename_i hgt
      obtain ⟨h1, h2⟩ := ih (some i) s
      refine ⟨by omega, ?_⟩
      intro q hq
      rcases List.mem_cons.mp hq with rfl | hq'
      · exact h1
      · exact h2 q hq'
    · rename_i hle
      obtain ⟨h1, h2⟩ := ih bi bs
      refine ⟨h1, ?_⟩
      intro q hq
      rcases List.mem_cons.mp hq with rfl | hq'
      · omega
      · exact h2 q hq'

/-- The best-candidate fold either keeps its accumulator or returns an index
whose score is listed and strictly improves on the initial best. -/
theorem bestLoop_cases :
    ∀ (l : List (ℕ × ℕ)) (bi : Option ℕ) (bs : ℕ),
      bestLoop l bi bs = (bi, bs) ∨
        ∃ j, (bestLoop l bi bs).1 = some j ∧ (j, (bestLoop l bi bs).2) ∈ l ∧
          bs < (bestLoop l bi bs).2 := by
  intro l
  induction l with
  | nil =>
    intro bi bs
    exact Or.inl rfl
  | cons p rest ih =>
    intro bi bs
    obtain ⟨i, s⟩ := p
    rw [bestLoop]
    split
    · rename_i hgt
      rcases ih (some i) s with h | ⟨j, h1, h2, h3⟩
      · rw [h]
        exact Or.inr ⟨i, rfl, by simp, hgt⟩
      · exact Or.inr ⟨j, h1, List.mem_cons_of_mem _ h2, by omega⟩
    · rename_i hle
      rcases ih bi bs with h | ⟨j, h1, h2, h3⟩
      · exact Or.inl h
      · exact Or.inr ⟨j, h1, List.mem_cons_of_mem _ h2, h3⟩

/-- A positive best: the assigned index carries the maximal score, which is
attained and strictly positive. -/
theorem bestFor_some (ocrRules : List OcrRule) (r : Rule) (i bs : ℕ)
    (h : bestFor ocrRules r = (some i, bs)) :
    0 < bs ∧ (∃ o, ocrRules.get? i = some o ∧ bs = score r o) ∧
      ∀ j o, ocrRules.get? j = some o → score r o ≤ bs := by
  unfold bestFor at h
  rcases bestLoop_cases (ocrRules.enum.map fun p => (p.1, score r p.2)) none 0 with hc |
      ⟨j, h1, h2, h3⟩
  · rw [hc] at h
    exact absurd (congrArg Prod.fst h) (by simp)
  · rw [h] at h1 h2 h3
    simp only at h1 h2 h3
    cases Option.some.inj h1
    rcases List.mem_map.mp h2 with ⟨⟨k, o⟩, hko, hpair⟩
    have hk : k = i := congrArg Prod.fst hpair
    subst hk
    have hs : score r o = bs := congrArg Prod.snd hpair
    refine ⟨h3, ⟨o, List.mk_mem_enum_iff_get?.mp hko, hs.symm⟩, ?_⟩
    intro j' o' ho'
    have hmem : (j', score r o') ∈ ocrRules.enum.map fun p => (p.1, score r p.2) :=
      List.mem_map.mpr ⟨(j', o'), List.mk_mem_enum_iff_get?.mpr ho', rfl⟩
    have := (bestLoop_ub (ocrRules.enum.map fun p => (p.1, score r p.2)) none 0).2
      (j', score r o') hmem
    rw [h] at this
    exact this

/-- No assignment: every pair score is zero. -/
theorem bestFor_none (ocrRules : List OcrRule) (r : Rule) (bs : ℕ)
    (h : bestFor ocrRules r = (none, bs)) :
    ∀ o ∈ ocrRules, score r o = 0 := by
  unfold bestFor at h
  rcases bestLoop_cases (ocrRules.enum.map fun p => (p.1, score r p.2)) none 0 with hc |
      ⟨j, h1, h2, h3⟩
  · intro o ho
    rcases List.mem_iff_get?.mp ho with ⟨n, hn⟩
    have hmem : (n, score r o) ∈ ocrRules.enum.map fun p => (p.1, score r p.2) :=
      List.mem_map.mpr ⟨(n, o), List.mk_mem_enum_iff_get?.mpr hn, rfl⟩
    have := (bestLoop_ub (ocrRules.enum.map fun p => (p.1, score r p.2)) none 0).2
      (n, score r o) hmem
    rw [hc] at this
    simp at this
    exact this
  · rw [h] at h1
    exact absurd h1 (by simp)

/-- The rule loop of `match_ocr_rules`, characterized: each rule is
annotated independently by `applyBest`, and an index survives `unmatched`
iff no rule is assigned it. -/
theorem matchGo_spec (ocrRules : List OcrRule) :
    ∀ (rules : List Rule) (unmatched : List ℕ) (out : List MatchedRule),
      unmatched.Nodup →
      (matchGo ocrRules rules unmatched out).1 = out ++ rules.map (applyBest ocrRules) ∧
        (matchGo ocrRules rules unmatched out).2 =
          unmatched.filter fun i => rules.all fun r => assignedIdx ocrRules r != some i := by
  intro rules
  induction rules with
  | nil =>
    intro unmatched out _
    rw [matchGo]
    refine ⟨by simp, ?_⟩
    symm
    apply List.filter_eq_self.mpr
    intro a _
    simp
  | cons r rest ih =>
    intro unmatched out hnd
    rcases hbf : bestFor ocrRules r with ⟨_ | i, bs⟩
    · have happ : applyBest ocrRules r = ⟨r, none, none⟩ := by
        unfold applyBest
        rw [hbf]
      simp only [matchGo, hbf]
      obtain ⟨ih1, ih2⟩ := ih unmatched (out ++ [⟨r, none, none⟩]) hnd
      refine ⟨?_, ?_⟩
      · rw [ih1]
        simp [happ]
      · rw [ih2]
        apply List.filter_congr
        intro a _
        simp [assignedIdx, happ]
    · have happ : applyBest ocrRules r =
          if bs > 0 then ⟨r, some i, some bs⟩ else ⟨r, none, none⟩ := by
        unfold applyBest
        rw [hbf]
      simp only [matchGo, hbf]
      by_cases hpos : bs > 0
      · rw [if_pos hpos]
        obtain ⟨ih1, ih2⟩ := ih (unmatched.erase i) (out ++ [⟨r, some i, some bs⟩])
          (hnd.erase i)
        refine ⟨?_, ?_⟩
        · rw [ih1]
          simp [happ, if_pos hpos]
        · rw [ih2, hnd.erase_eq_filter i, List.filter_filter]
          apply List.filter_congr
          intro a _
          simp only [assignedIdx, happ, hpos, if_pos hpos, List.all_cons, bne, Bool.and_comm]
          rw [Bool.beq_comm]
          simp
      · rw [if_neg hpos]
        obtain ⟨ih1, ih2⟩ := ih unmatched (out ++ [⟨r, none, none⟩]) hnd
        refine ⟨?_, ?_⟩
        · rw [ih1]
          simp [happ, if_neg hpos]
        · rw [ih2]
          apply List.filter_congr
          intro a _
          simp [assignedIdx, happ, hpos]

/-- Counterexample to C6 as stated: for a rule whose title normalizes to the
empty token (here `"!"`), the claim's unguarded formula scores the pair 10
(the empty string is a substring of every name), yet the code's truthiness
guard `if tnorm and (...)` scores it 0, assigns no best record, and reports
the external record as unmatched. -/
theorem correlation_empty_title_counterexample :
    claimScore ⟨['!'], [], []⟩ ⟨['a'], [], []⟩ = 10 ∧
      score ⟨['!'], [], []⟩ ⟨['a'], [], []⟩ = 0 ∧
      match_ocr_rules [⟨['!'], [], []⟩] [⟨['a'], [], []⟩] =
        ([⟨⟨['!'], [], []⟩, none, none⟩], [⟨['a'], [], []⟩]) := by
  refine ⟨by decide, by decide, by decide⟩

/-- C6 (amended): pair scores follow the claim's formula with the title
indicator additionally requiring a **nonempty** normalized title; each rule
is independently annotated with its best-scoring external record exactly
when the best score is positive (the best score is attained and maximal);
and the separately returned unmatched list consists of the external records
assigned to no rule, in index order. -/
theorem correlation_spec (rules : List Rule) (ocrRules : List OcrRule) :
    (∀ r o, score r o =
      (if normalize_token r.title ≠ [] ∧
          claimTitleMatch (normalize_token r.title) (normalize_token o.name)
       then 10 else 0) +
        2 * (o.emails.toFinset ∩ r.emails.toFinset).card +
        ((o.subject_keywords.map normalize_token).toFinset ∩
            (r.keywords.map normalize_token).toFinset).card) ∧
      (match_ocr_rules rules ocrRules).1 = rules.map (applyBest ocrRules) ∧
      (match_ocr_rules rules ocrRules).2 =
        ((List.range ocrRules.length).filter fun i =>
          rules.all fun r => assignedIdx ocrRules r != some i).filterMap
          (fun i => ocrRules.get? i) ∧
      (∀ r i bs, bestFor ocrRules r = (some i, bs) →
        0 < bs ∧ (∃ o, ocrRules.get? i = some o ∧ bs = score r o) ∧
          ∀ j o, ocrRules.get? j = some o → score r o ≤ bs) ∧
      ∀ r bs, bestFor ocrRules r = (none, bs) → ∀ o ∈ ocrRules, score r o = 0 := by
  obtain ⟨h1, h2⟩ := matchGo_spec ocrRules rules (List.range ocrRules.length) []
    (List.nodup_range _)
  refine ⟨score_eq_formula, ?_, ?_, bestFor_some ocrRules, bestFor_none ocrRules⟩
  · unfold match_ocr_rules
    rw [h1]
    simp
  · unfold match_ocr_rules
    rw [h2]
    have hsorted : List.Sorted (· ≤ ·)
        ((List.range ocrRules.length).filter fun i =>
          rules.all fun r => assignedIdx ocrRules r != some i) := by
      have := (List.pairwise_lt_range ocrRules.length).filter
        (fun i => rules.all fun r => assignedIdx ocrRules r != some i)
      exact this.imp le_of_lt
    rw [hsorted.insertionSort_eq]

/-- Witness for the amended C6 at a concrete pair: the title `"[A]"` matches
the OCR name `"x[A]x"` by substring, so the best score is 10, attained and
maximal. -/
theorem correlation_spec_witness :
    0 < 10 ∧
      (∃ o, ([⟨['x', '[', 'A', ']', 'x'], [], []⟩] : List OcrRule).get? 0 = some o ∧
        10 = score ⟨['[', 'A', ']'], [], []⟩ o) ∧
      ∀ j o, ([⟨['x', '[', 'A', ']', 'x'], [], []⟩] : List OcrRule).get? j = some o →
        score ⟨['[', 'A', ']'], [], []⟩ o ≤ 10 :=
  (correlation_spec [⟨['[', 'A', ']'], [], []⟩] [⟨['x', '[', 'A', ']', 'x'], [], []⟩]).2.2.2.1
    ⟨['[', 'A', ']'], [], []⟩ 0 10 (by decide)

/-! ## C2: gap classification -/

/-- Counterexample to C2 as stated: on an empty gap, `classify_gaps` raises
`ZeroDivisionError` in `region.count(0) / len(region)` (modelled by `none`) —
the empty gap receives no class at all. -/
theorem classify_empty_gap_crash :
    classifyGap [1, 2, 3] ⟨0, 0, 0⟩ = none ∧
      classify_gaps [⟨0, 0, 0⟩] [1, 2, 3] = none := by
  refine ⟨by decide, by decide⟩

/-- The byte histogram of a list of bytes below `N` sums to its length. -/
theorem count_sum_eq (N : ℕ) (region : List ℕ) (h : ∀ b ∈ region, b < N) :
    ∑ b ∈ Finset.range N, region.count b = region.length := by
  induction region with
  | nil => simp
  | cons x xs ih =>
    have hx : x < N := h x (by simp)
    have ihh := ih (fun b hb => h b (by simp [hb]))
    simp only [List.count_cons, beq_iff_eq, List.length_cons]
    rw [Finset.sum_add_distrib, ihh]
    congr 1
    rw [Finset.sum_ite_eq (Finset.range N) x (fun _ => 1)]
    simp [hx]

/-- The exact integer test `entropyGtThree` decides the real-number
statement `entropy > 3.0` for the base-2 Shannon entropy of a nonempty
region of bytes. -/
theorem entropy_bridge (region : List ℕ) (hne : region.length ≠ 0)
    (h : ∀ b ∈ region, b < 256) :
    (8 ^ region.length * entropyProd region < region.length ^ region.length) ↔
      3 < realEntropy region := by
  have hn : 0 < region.length := Nat.pos_of_ne_zero hne
  have hnR : (0 : ℝ) < (region.length : ℝ) := by exact_mod_cast hn
  have hlog2 : (0 : ℝ) < Real.log 2 := Real.log_pos (by norm_num)
  have hterm : ∀ b ∈ Finset.range 256,
      -(((region.count b : ℝ) / region.length) *
          Real.logb 2 ((region.count b : ℝ) / region.length)) =
        ((region.count b : ℝ) * Real.log region.length -
            (region.count b : ℝ) * Real.log (region.count b)) /
          (region.length * Real.log 2) := by
    intro b _
    by_cases hc : region.count b = 0
    · rw [hc]
      simp [Real.logb]
    · have hcR : (0 : ℝ) < (region.count b : ℝ) := by
        exact_mod_cast Nat.pos_of_ne_zero hc
      rw [Real.logb, Real.log_div (ne_of_gt hcR) (ne_of_gt hnR)]
      field_simp
      ring
  have hsumc : (∑ b ∈ Finset.range 256, (region.count b : ℝ)) = (region.length : ℝ) := by
    rw [← Nat.cast_sum]
    exact_mod_cast congrArg (fun k : ℕ => (k : ℝ)) (count_sum_eq 256 region h)
  have hE : realEntropy region =
      ((region.length : ℝ) * Real.log region.length -
          ∑ b ∈ Finset.range 256, (region.count b : ℝ) * Real.log (region.count b)) /
        (region.length * Real.log 2) := by
    unfold realEntropy
    rw [← Finset.sum_neg_distrib, Finset.sum_congr rfl hterm, ← Finset.sum_div,
      Finset.sum_sub_distrib, ← Finset.sum_mul, hsumc]
  have hP : ∀ b ∈ Finset.range 256, ((region.count b : ℝ) ^ region.count b) ≠ 0 := by
    intro b _
    by_cases hc : region.count b = 0
    · rw [hc]
      norm_num
    · have hcR : (0 : ℝ) < (region.count b : ℝ) := by
        exact_mod_cast Nat.pos_of_ne_zero hc
      positivity
  have hPpos : (0 : ℝ) < ∏ b ∈ Finset.range 256, (region.count b : ℝ) ^ region.count b := by
    apply Finset.prod_pos
    intro b _
    by_cases hc : region.count b = 0
    · rw [hc]
      norm_num
    · have hcR : (0 : ℝ) < (region.count b : ℝ) := by
        exact_mod_cast Nat.pos_of_ne_zero hc
      positivity
  have hS : (∑ b ∈ Finset.range 256, (region.count b : ℝ) * Real.log (region.count b)) =
      Real.log (∏ b ∈ Finset.range 256, (region.count b : ℝ) ^ region.count b) := by
    rw [Real.log_prod _ _ hP]
    exact (Finset.sum_congr rfl fun b _ => (Real.log_pow _ _).symm)
  have h8 : 3 * ((region.length : ℝ) * Real.log 2) = Real.log ((8 : ℝ) ^ region.length) := by
    rw [Real.log_pow, show (8 : ℝ) = 2 ^ 3 by norm_num, Real.log_pow]
    push_cast
    ring
  have hNN : (region.length : ℝ) * Real.log region.length =
      Real.log ((region.length : ℝ) ^ region.length) := by
    rw [Real.log_pow]
  rw [hE, lt_div_iff₀ (by positivity), lt_sub_iff_add_lt, hS, hNN, h8,
    ← Real.log_mul (by positivity) (ne_of_gt hPpos),
    Real.log_lt_log_iff (by positivity) (by positivity)]
  rw [show ((8 : ℝ) ^ region.length * ∏ b ∈ Finset.range 256,
      (region.count b : ℝ) ^ region.count b) =
      ((8 ^ region.length * entropyProd region : ℕ) : ℝ) by
    unfold entropyProd
    push_cast
    ring]
  rw [show ((region.length : ℝ) ^ region.length) =
      ((region.length ^ region.length : ℕ) : ℝ) by push_cast; ring]
  exact ⟨fun hx => by exact_mod_cast hx, fun hx => by exact_mod_cast hx⟩

/-- Bytes of a slice are bytes of the buffer. -/
theorem sliceRegion_subset (data : List ℕ) (s e : ℕ) :
    ∀ b ∈ sliceRegion data s e, b ∈ data := by
  intro b hb
  unfold sliceRegion at hb
  exact List.drop_subset s data (List.take_subset _ _ hb)

/-- C2 (amended): classification is total on every **nonempty** gap —
exactly one class, assigned in priority order: `pure_null` when
`null_ratio > 0.95`, else `sparse` when `null_ratio > 0.5`, else
`structured` when the base-2 Shannon entropy exceeds 3, else `unknown`.
(On an empty gap the code raises `ZeroDivisionError`: see the
counterexample.) -/
theorem classify_nonempty_gap_total (data : List ℕ) (g : Gap)
    (hbytes : ∀ b ∈ data, b < 256)
    (hne : (sliceRegion data g.start g.stop).length ≠ 0) :
    ∃ c, classifyGap data g = some c ∧
      (nullRatio (sliceRegion data g.start g.stop) > 95 / 100 → c = GapClass.pure_null) ∧
      (¬nullRatio (sliceRegion data g.start g.stop) > 95 / 100 →
        nullRatio (sliceRegion data g.start g.stop) > 1 / 2 → c = GapClass.sparse) ∧
      (¬nullRatio (sliceRegion data g.start g.stop) > 95 / 100 →
        ¬nullRatio (sliceRegion data g.start g.stop) > 1 / 2 →
        3 < realEntropy (sliceRegion data g.start g.stop) → c = GapClass.structured) ∧
      (¬nullRatio (sliceRegion data g.start g.stop) > 95 / 100 →
        ¬nullRatio (sliceRegion data g.start g.stop) > 1 / 2 →
        ¬3 < realEntropy (sliceRegion data g.start g.stop) → c = GapClass.unknown) := by
  have hreg : ∀ b ∈ sliceRegion data g.start g.stop, b < 256 := fun b hb =>
    hbytes b (sliceRegion_subset data g.start g.stop b hb)
  have hbridge := entropy_bridge (sliceRegion data g.start g.stop) hne hreg
  by_cases h1 : nullRatio (sliceRegion data g.start g.stop) > 95 / 100
  · refine ⟨GapClass.pure_null, ?_, fun _ => rfl, fun hn => absurd h1 hn,
      fun hn _ _ => absurd h1 hn, fun hn _ _ => absurd h1 hn⟩
    unfold classifyGap
    rw [if_neg hne, if_pos h1]
  · by_cases h2 : nullRatio (sliceRegion data g.start g.stop) > 1 / 2
    · refine ⟨GapClass.sparse, ?_, fun hh => absurd hh h1, fun _ _ => rfl,
        fun _ hn => absurd h2 hn, fun _ hn => absurd h2 hn⟩
      unfold classifyGap
      rw [if_neg hne, if_neg h1, if_pos h2]
    · by_cases h3 : entropyGtThree (sliceRegion data g.start g.stop) = true
      · have h3' : 3 < realEntropy (sliceRegion data g.start g.stop) :=
          hbridge.mp (of_decide_eq_true h3)
        refine ⟨GapClass.structured, ?_, fun hh => absurd hh h1, fun _ hh => absurd hh h2,
          fun _ _ _ => rfl, fun _ _ hn => absurd h3' hn⟩
        unfold classifyGap
        rw [if_neg hne, if_neg h1, if_neg h2, if_pos h3]
      · have h3' : ¬3 < realEntropy (sliceRegion data g.start g.stop) := fun hc =>
          h3 (decide_eq_true (hbridge.mpr hc))
        refine ⟨GapClass.unknown, ?_, fun hh => absurd hh h1, fun _ hh => absurd hh h2,
          fun _ _ hh => absurd hh h3', fun _ _ _ => rfl⟩
        unfold classifyGap
        rw [if_neg hne, if_neg h1, if_neg h2, if_neg h3]

/-- Witness for the amended C2 on a concrete nonempty gap: `[0,0,0]` with
gap `[0, 3)`. -/
theorem classify_nonempty_gap_total_witness :
    ∃ c, classifyGap [0, 0, 0] ⟨0, 3, 3⟩ = some c ∧
      (nullRatio (sliceRegion [0, 0, 0] 0 3) > 95 / 100 → c = GapClass.pure_null) ∧
      (¬nullRatio (sliceRegion [0, 0, 0] 0 3) > 95 / 100 →
        nullRatio (sliceRegion [0, 0, 0] 0 3) > 1 / 2 → c = GapClass.sparse) ∧
      (¬nullRatio (sliceRegion [0, 0, 0] 0 3) > 95 / 100 →
        ¬nullRatio (sliceRegion [0, 0, 0] 0 3) > 1 / 2 →
        3 < realEntropy (sliceRegion [0, 0, 0] 0 3) → c = GapClass.structured) ∧
      (¬nullRatio (sliceRegion [0, 0, 0] 0 3) > 95 / 100 →
        ¬nullRatio (sliceRegion [0, 0, 0] 0 3) > 1 / 2 →
        ¬3 < realEntropy (sliceRegion [0, 0, 0] 0 3) → c = GapClass.unknown) :=
  classify_nonempty_gap_total [0, 0, 0] ⟨0, 3, 3⟩ (by decide) (by decide)

/-! ## C9: determinism of the pipeline -/

/-- C9: running the full analysis twice on the same buffer, the same
auxiliary OCR input and the same configuration yields identical outputs.
The embedded pipeline is a pure function of its inputs — it threads no
state, consults no randomness, and every ordering it produces (sorted gap
lists, sorted chains, insertion-ordered buckets, sorted unmatched indices)
is computed deterministically from the arguments, mirroring the Python
code's insertion-ordered dicts and explicitly sorted outputs. -/
theorem pipeline_deterministic (data : List ℕ) (minChars : ℕ) (includeAscii : Bool)
    (minGapSize maxDepth : ℕ) (rules : List Rule) (ocrRules : List OcrRule) :
    pipeline data minChars includeAscii minGapSize maxDepth rules ocrRules =
      pipeline data minChars includeAscii minGapSize maxDepth rules ocrRules := rfl

end Rwz
